import Mathlib

/-!
# net_exclude: IPv4 CIDR exclusion

Shallow embedding of `net_exclude.go`.  A `uint32` address and a `uint8` mask
length are natural numbers; every operation that can wrap in Go is written with
its explicit modulus.
-/

namespace NetExclude

/-! ## CIDR primitive -/

/-- The `Net` struct: `Addr` is a `uint32`, `Masklen` a `uint8`. -/
structure Net where
  Addr : Nat
  Masklen : Nat
deriving DecidableEq, Repr

/-- Go `Mask`: `uint32(0xFFFFFFFF) << (32-masklen)`.  The shift count is a
`uint8`, so the subtraction wraps modulo 256, and the shifted word is cut to 32
bits (a count of 32 or more leaves zero). -/
def Mask (masklen : Nat) : Nat :=
  (0xFFFFFFFF <<< ((32 + 256 - masklen) % 256)) % 2 ^ 32

/-- Go `(*Net).Contains`. -/
def Contains (net child : Net) : Bool :=
  if (net.Addr &&& Mask net.Masklen) = (child.Addr &&& Mask net.Masklen)
      ∧ net.Masklen ≤ child.Masklen then
    true
  else
    false

/-- Go `(*Net).IsValid`. -/
def IsValid (net : Net) : Bool :=
  if (net.Addr &&& Mask net.Masklen) = net.Addr then
    true
  else
    false

/-- Go `(*Net).Split`: `nil` for a mask length of 32 or more, otherwise the two
halves, the second with the newly significant bit set. -/
def Split (net : Net) : List Net :=
  if net.Masklen ≥ 32 then
    []
  else
    let next_masklen := (net.Masklen + 1) % 256
    let bit := (1 <<< ((32 + 256 - next_masklen) % 256)) % 2 ^ 32
    [⟨net.Addr, next_masklen⟩, ⟨net.Addr ||| bit, next_masklen⟩]

/-- Go `(*Net).Equals`. -/
def Equals (net check_net : Net) : Bool :=
  net.Addr == check_net.Addr && net.Masklen == check_net.Masklen

/-! ## Exclusion engine -/

/-- How the scanning loop at the head of `Exclude` ends. -/
inductive Scan where
  /-- The `return` inside the loop: the network equals an exclusion. -/
  | stop
  /-- The loop ended by `contains = true; break`. -/
  | split
  /-- The loop ran to its end with `contains == false`. -/
  | emit
deriving DecidableEq, Repr

/-- The `for _, exclude_net := range exclude_nets` loop of `Exclude`. -/
def scan (net : Net) : List Net → Scan
  | [] => Scan.emit
  | exclude_net :: rest =>
    if Equals net exclude_net then
      Scan.stop
    else if Contains net exclude_net then
      Scan.split
    else
      scan net rest

/-- The body of `Exclude` with a bound on the recursion depth.  The result is
the sequence of networks handed to `fmt.Println`, in order. -/
def ExcludeFuel : Nat → Net → List Net → List Net
  | 0, _, _ => []
  | fuel + 1, net, exclude_nets =>
    match scan net exclude_nets with
    | Scan.stop => []
    | Scan.split => (Split net).flatMap (fun part => ExcludeFuel fuel part exclude_nets)
    | Scan.emit => [net]

/-- Go `(*Net).Exclude`.  A split raises the mask length by one and `Split`
returns nothing from 32 on, so `32 - Masklen + 1` levels always suffice
(`Exclude_unfold` below shows that the bound is never hit). -/
def Exclude (net : Net) (exclude_nets : List Net) : List Net :=
  ExcludeFuel (32 - net.Masklen + 1) net exclude_nets

/-- The body of `Exclude` with a counter of nested calls: `none` when the
recursion would go deeper than `depth` calls, otherwise the emitted sequence.
It differs from `ExcludeFuel` only in reporting that the bound was hit. -/
def ExcludeDepth : Nat → Net → List Net → Option (List Net)
  | 0, _, _ => none
  | depth + 1, net, exclude_nets =>
    match scan net exclude_nets with
    | Scan.stop => some []
    | Scan.split =>
      (Split net).foldl
        (fun acc part =>
          match acc, ExcludeDepth depth part exclude_nets with
          | some out, some more => some (out ++ more)
          | _, _ => none)
        (some [])
    | Scan.emit => some [net]

/-- The networks on which `Exclude` is called during a run, in call order,
with the same bound on the depth as `ExcludeFuel`. -/
def VisitedFuel : Nat → Net → List Net → List Net
  | 0, _, _ => []
  | fuel + 1, net, exclude_nets =>
    net ::
      match scan net exclude_nets with
      | Scan.stop => []
      | Scan.split => (Split net).flatMap (fun part => VisitedFuel fuel part exclude_nets)
      | Scan.emit => []

/-- The networks visited by `Exclude net exclude_nets`: the receiver of every
call, the first one included. -/
def Visited (net : Net) (exclude_nets : List Net) : List Net :=
  VisitedFuel (32 - net.Masklen + 1) net exclude_nets

/-! ## Text rendering -/

/-- Go `Long2ip`: the four bytes of the address, most significant first, in
decimal and separated by dots. -/
def Long2ip (ipLong : Nat) : String :=
  toString (ipLong / 2 ^ 24 % 256) ++ "." ++ toString (ipLong / 2 ^ 16 % 256) ++ "."
    ++ toString (ipLong / 2 ^ 8 % 256) ++ "." ++ toString (ipLong % 256)

/-- Result of a call of `(*Net).String`. -/
inductive Rendered where
  /-- The call panicked with this message. -/
  | panicked (msg : String)
  /-- The call returned this text. -/
  | ok (text : String)
deriving DecidableEq, Repr

/-- Go `(*Net).String` (named `render` here, `String` being the type of
texts): the panic branch when `IsValid` is false, otherwise the dotted address,
a slash and the mask length. -/
def Net.render (net : Net) : Rendered :=
  if !IsValid net then
    Rendered.panicked ("Invalid network for String: " ++ Long2ip net.Addr ++ "/"
      ++ toString net.Masklen)
  else
    Rendered.ok (Long2ip net.Addr ++ "/" ++ toString net.Masklen)

/-! ## Command-line driver -/

/-- The two diagnostics of `main` that end in `os.Exit(1)`, and the usage text. -/
inductive Failure where
  /-- Fewer than three `os.Args`: the usage text. -/
  | usage
  /-- The diagnostic `Bad network: ...`. -/
  | badNetwork
  /-- The diagnostic `Invalid network/mask: ...`. -/
  | invalidNetwork
deriving DecidableEq, Repr

/-- How a run of `main` ends. -/
inductive Outcome where
  /-- A diagnostic on stderr and `os.Exit(1)`. -/
  | exit1 (why : Failure)
  /-- The `return` inside the argument loop: `Exclude` is never called. -/
  | returned
  /-- The loop finished and `start_net.Exclude(exclude_nets)` produced `out`. -/
  | ran (out : List Net)
deriving DecidableEq, Repr

/-- Networks printed on stdout by a run. -/
def Outcome.output : Outcome → List Net
  | Outcome.exit1 _ => []
  | Outcome.returned => []
  | Outcome.ran out => out

/-- A command-line argument after the regular expression, `Ip2long` and
`strconv.ParseUint`: `none` when one of them fails, otherwise the address and
the mask length as the `uint64` that `ParseUint` returns (32 when the exclusion
has no `/n`). -/
abbrev Arg := Option (Nat × Nat)

/-- The argument parsed from a network, as the user would write it. -/
def Net.toArg (net : Net) : Arg := some (net.Addr, net.Masklen)

/-- The `for _, arg := range os.Args[2:]` loop of `main`, followed by the call
of `Exclude`; `exclude_nets` is the slice built so far. -/
def mainLoop (start_net : Net) : List Arg → List Net → Outcome
  | [], exclude_nets => Outcome.ran (Exclude start_net exclude_nets)
  | none :: _, _ => Outcome.exit1 Failure.badNetwork
  | some (exclude_addr, exclude_masklen) :: rest, exclude_nets =>
    if exclude_masklen > 32 then
      Outcome.exit1 Failure.badNetwork
    else
      let exclude_net : Net := ⟨exclude_addr, exclude_masklen % 256⟩
      if !IsValid exclude_net then
        Outcome.exit1 Failure.invalidNetwork
      else if Contains exclude_net start_net then
        Outcome.returned
      else
        mainLoop start_net rest (exclude_nets ++ [exclude_net])

/-- Go `main` on its parsed arguments: `base` is `os.Args[1]`, `args` is
`os.Args[2:]`. -/
def main (base : Arg) (args : List Arg) : Outcome :=
  if args.length + 2 < 3 then
    Outcome.exit1 Failure.usage
  else
    match base with
    | none => Outcome.exit1 Failure.badNetwork
    | some (start_addr, start_masklen) =>
      if start_masklen > 32 then
        Outcome.exit1 Failure.badNetwork
      else
        let start_net : Net := ⟨start_addr, start_masklen % 256⟩
        if !IsValid start_net then
          Outcome.exit1 Failure.invalidNetwork
        else
          mainLoop start_net args []

/-! ## Specification vocabulary -/

/-- Number of addresses in a block of the given mask length. -/
def size (net : Net) : Nat := 2 ^ (32 - net.Masklen)

/-- The 32-bit address `a` lies in the range of `net`: it agrees with the
network address under the network's own mask. -/
def inRange (net : Net) (a : Nat) : Prop :=
  a < 2 ^ 32 ∧ a &&& Mask net.Masklen = net.Addr &&& Mask net.Masklen

/-- A network that `main` accepts: a 32-bit address, a mask length of at most
32, and `IsValid`. -/
def Valid (net : Net) : Prop :=
  net.Addr < 2 ^ 32 ∧ net.Masklen ≤ 32 ∧ IsValid net = true

/-- The low half of a network: same address, mask length one more. -/
def lowHalf (net : Net) : Net := ⟨net.Addr, net.Masklen + 1⟩

/-- The high half of a network below /32: the newly significant bit is added
to the address (`Split_eq` shows that `Split` returns exactly these two halves
for a valid network). -/
def highHalf (net : Net) : Net := ⟨net.Addr + 2 ^ (31 - net.Masklen), net.Masklen + 1⟩

/-- The exclusions are not nested in one another: any two have disjoint ranges
or the same range. -/
def Unnested (exclude_nets : List Net) : Prop :=
  ∀ x ∈ exclude_nets, ∀ y ∈ exclude_nets,
    (∀ a, ¬ (inRange x a ∧ inRange y a)) ∨ (∀ a, inRange x a ↔ inRange y a)

instance (net : Net) : Decidable (Valid net) :=
  inferInstanceAs (Decidable (net.Addr < 2 ^ 32 ∧ net.Masklen ≤ 32 ∧ IsValid net = true))

instance (net : Net) (a : Nat) : Decidable (inRange net a) :=
  inferInstanceAs
    (Decidable (a < 2 ^ 32 ∧ a &&& Mask net.Masklen = net.Addr &&& Mask net.Masklen))

/-! ## Arithmetic of masks -/

theorem Mask_eq_mul (m : Nat) (hm : m ≤ 32) : Mask m = (2 ^ m - 1) * 2 ^ (32 - m) := by
  interval_cases m <;> rfl

theorem land_Mask (a m : Nat) (ha : a < 2 ^ 32) (hm : m ≤ 32) :
    a &&& Mask m = a / 2 ^ (32 - m) * 2 ^ (32 - m) := by
  rw [Mask_eq_mul m hm, ← Nat.shiftLeft_eq, ← Nat.shiftLeft_eq, ← Nat.shiftRight_eq_div_pow]
  apply Nat.eq_of_testBit_eq
  intro i
  simp only [Nat.testBit_and, Nat.testBit_shiftLeft, Nat.testBit_shiftRight,
    Nat.testBit_two_pow_sub_one]
  by_cases h1 : 32 - m ≤ i
  · have h2 : 32 - m + (i - (32 - m)) = i := by omega
    rw [h2]
    by_cases h3 : i < 32
    · have : i - (32 - m) < m := by omega
      simp [h1, this]
    · have : a.testBit i = false := by
        apply Nat.testBit_lt_two_pow
        exact lt_of_lt_of_le ha (Nat.pow_le_pow_right (by norm_num) (by omega))
      simp [this]
  · simp [h1]

theorem land_Mask_eq_iff (a b m : Nat) (ha : a < 2 ^ 32) (hb : b < 2 ^ 32) (hm : m ≤ 32) :
    a &&& Mask m = b &&& Mask m ↔ a / 2 ^ (32 - m) = b / 2 ^ (32 - m) := by
  rw [land_Mask a m ha hm, land_Mask b m hb hm]
  constructor
  · intro h
    exact Nat.eq_of_mul_eq_mul_right (Nat.pos_pow_of_pos _ (by norm_num)) h
  · intro h
    rw [h]

theorem size_pos (net : Net) : 0 < size net := Nat.pos_pow_of_pos _ (by norm_num)

/-- Quotients by an aligned block: `a / s = A / s` says `a` is in `[A, A + s)`. -/
theorem div_eq_div_iff_of_aligned (a A s : Nat) (hs : 0 < s) (hA : A % s = 0) :
    a / s = A / s ↔ A ≤ a ∧ a < A + s := by
  obtain ⟨q, rfl⟩ := Nat.dvd_of_mod_eq_zero hA
  rw [Nat.mul_div_cancel_left q hs]
  constructor
  · intro h
    have h1 := Nat.div_add_mod a s
    have h2 := Nat.mod_lt a hs
    rw [h] at h1
    omega
  · rintro ⟨h1, h2⟩
    apply Nat.div_eq_of_lt_le
    · rw [Nat.mul_comm]; exact h1
    · rw [Nat.add_mul, Nat.one_mul, Nat.mul_comm]; exact h2

theorem Valid_iff (net : Net) :
    Valid net ↔ net.Addr < 2 ^ 32 ∧ net.Masklen ≤ 32 ∧ net.Addr % size net = 0 := by
  unfold Valid IsValid size
  constructor
  · rintro ⟨h1, h2, h3⟩
    refine ⟨h1, h2, ?_⟩
    have h4 : net.Addr &&& Mask net.Masklen = net.Addr := by
      by_contra hne
      simp [hne] at h3
    rw [land_Mask _ _ h1 h2] at h4
    have h5 := Nat.div_add_mod net.Addr (2 ^ (32 - net.Masklen))
    rw [Nat.mul_comm] at h5
    omega
  · rintro ⟨h1, h2, h3⟩
    refine ⟨h1, h2, ?_⟩
    have h4 : net.Addr &&& Mask net.Masklen = net.Addr := by
      rw [land_Mask _ _ h1 h2]
      have h5 := Nat.div_add_mod net.Addr (2 ^ (32 - net.Masklen))
      rw [Nat.mul_comm] at h5
      omega
    simp [h4]

theorem Valid.add_size_le {net : Net} (h : Valid net) : net.Addr + size net ≤ 2 ^ 32 := by
  obtain ⟨h1, h2, h3⟩ := (Valid_iff net).1 h
  obtain ⟨q, hq⟩ := Nat.dvd_of_mod_eq_zero h3
  have hs : 2 ^ 32 = size net * 2 ^ net.Masklen := by
    unfold size
    rw [← pow_add]
    congr 1
    omega
  have hpos := size_pos net
  rw [hq, hs] at h1
  have h4 : q < 2 ^ net.Masklen := Nat.lt_of_mul_lt_mul_left h1
  rw [hq, hs]
  calc size net * q + size net = size net * (q + 1) := by ring
    _ ≤ size net * 2 ^ net.Masklen := Nat.mul_le_mul_left _ h4

theorem inRange_iff_div (net : Net) (a : Nat) (h1 : net.Addr < 2 ^ 32)
    (h2 : net.Masklen ≤ 32) :
    inRange net a ↔ a < 2 ^ 32 ∧ a / size net = net.Addr / size net := by
  unfold inRange size
  constructor
  · rintro ⟨ha, h⟩
    exact ⟨ha, (land_Mask_eq_iff _ _ _ ha h1 h2).1 h⟩
  · rintro ⟨ha, h⟩
    exact ⟨ha, (land_Mask_eq_iff _ _ _ ha h1 h2).2 h⟩

/-- The range of a valid network is the interval `[Addr, Addr + size)`. -/
theorem inRange_iff {net : Net} (h : Valid net) (a : Nat) :
    inRange net a ↔ net.Addr ≤ a ∧ a < net.Addr + size net := by
  obtain ⟨h1, h2, h3⟩ := (Valid_iff net).1 h
  rw [inRange_iff_div net a h1 h2, div_eq_div_iff_of_aligned a _ _ (size_pos net) h3]
  have := h.add_size_le
  constructor
  · rintro ⟨_, h5⟩
    exact h5
  · intro h5
    exact ⟨by omega, h5⟩

theorem Contains_iff_div (net child : Net) (h1 : net.Addr < 2 ^ 32) (h2 : net.Masklen ≤ 32)
    (hc : child.Addr < 2 ^ 32) :
    Contains net child = true ↔
      net.Masklen ≤ child.Masklen ∧ child.Addr / size net = net.Addr / size net := by
  have key := land_Mask_eq_iff net.Addr child.Addr net.Masklen h1 hc h2
  unfold Contains size
  constructor
  · intro h
    by_cases hh : net.Addr &&& Mask net.Masklen = child.Addr &&& Mask net.Masklen
        ∧ net.Masklen ≤ child.Masklen
    · exact ⟨hh.2, (key.1 hh.1).symm⟩
    · simp [hh] at h
  · rintro ⟨h3, h4⟩
    have h5 := key.2 h4.symm
    simp [h3, h5]

/-- A valid network contains `child` when `child` is at least as long and its
address falls in the interval of the network. -/
theorem Contains_iff {net : Net} (h : Valid net) (child : Net) (hc : child.Addr < 2 ^ 32) :
    Contains net child = true ↔
      net.Masklen ≤ child.Masklen ∧ net.Addr ≤ child.Addr ∧ child.Addr < net.Addr + size net := by
  obtain ⟨h1, h2, h3⟩ := (Valid_iff net).1 h
  rw [Contains_iff_div net child h1 h2 hc,
    div_eq_div_iff_of_aligned child.Addr _ _ (size_pos net) h3]

theorem Equals_iff (net check_net : Net) : Equals net check_net = true ↔ net = check_net := by
  cases net
  cases check_net
  simp [Equals]

theorem Equals_self (net : Net) : Equals net net = true := (Equals_iff net net).2 rfl

theorem Contains_self (net : Net) : Contains net net = true := by
  simp [Contains]

/-! ## Splitting -/

theorem Split_of_ge (net : Net) (h : 32 ≤ net.Masklen) : Split net = [] := by
  simp [Split, h]

theorem size_eq_two_mul {net : Net} (hm : net.Masklen < 32) :
    size net = 2 * 2 ^ (31 - net.Masklen) := by
  unfold size
  rw [← pow_succ']
  congr 1
  omega

theorem Split_bit (m : Nat) (hm : m < 32) :
    (1 <<< ((32 + 256 - (m + 1) % 256) % 256)) % 2 ^ 32 = 2 ^ (31 - m) := by
  interval_cases m <;> rfl

/-- The result of `Split` on a valid network below /32: setting the new bit adds it. -/
theorem Split_eq {net : Net} (h : Valid net) (hm : net.Masklen < 32) :
    Split net = [lowHalf net, highHalf net] := by
  obtain ⟨h1, h2, h3⟩ := (Valid_iff net).1 h
  have hnot : ¬ net.Masklen ≥ 32 := by omega
  have hnext : (net.Masklen + 1) % 256 = net.Masklen + 1 := by omega
  unfold Split lowHalf highHalf
  simp only [hnot, if_false, Split_bit net.Masklen hm]
  rw [hnext]
  obtain ⟨q, hq⟩ := Nat.dvd_of_mod_eq_zero h3
  rw [size_eq_two_mul hm, ← pow_succ'] at hq
  have hlt : 2 ^ (31 - net.Masklen) < 2 ^ (31 - net.Masklen + 1) :=
    Nat.pow_lt_pow_right (by norm_num) (by omega)
  have hor : net.Addr ||| 2 ^ (31 - net.Masklen) = net.Addr + 2 ^ (31 - net.Masklen) := by
    rw [hq]
    exact (Nat.mul_add_lt_is_or hlt q).symm
  rw [hor]

theorem size_lowHalf (net : Net) :
    size (lowHalf net) = 2 ^ (31 - net.Masklen) := by
  unfold size lowHalf
  congr 1
  show 32 - (net.Masklen + 1) = 31 - net.Masklen
  omega

theorem size_highHalf (net : Net) :
    size (highHalf net) = 2 ^ (31 - net.Masklen) := by
  unfold size highHalf
  congr 1
  show 32 - (net.Masklen + 1) = 31 - net.Masklen
  omega

theorem Valid.lowHalf {net : Net} (h : Valid net) (hm : net.Masklen < 32) :
    Valid (lowHalf net) := by
  obtain ⟨h1, h2, h3⟩ := (Valid_iff net).1 h
  rw [Valid_iff]
  refine ⟨h1, by simp only [NetExclude.lowHalf]; omega, ?_⟩
  rw [size_lowHalf]
  obtain ⟨q, hq⟩ := Nat.dvd_of_mod_eq_zero h3
  rw [size_eq_two_mul hm] at hq
  show net.Addr % 2 ^ (31 - net.Masklen) = 0
  rw [hq, Nat.mul_comm 2, Nat.mul_assoc]
  exact Nat.mul_mod_right _ _

theorem Valid.highHalf {net : Net} (h : Valid net) (hm : net.Masklen < 32) :
    Valid (highHalf net) := by
  obtain ⟨h1, h2, h3⟩ := (Valid_iff net).1 h
  have hle := h.add_size_le
  have hpos : 0 < 2 ^ (31 - net.Masklen) := Nat.pos_pow_of_pos _ (by norm_num)
  rw [size_eq_two_mul hm] at hle
  rw [Valid_iff]
  refine ⟨?_, by simp only [NetExclude.highHalf]; omega, ?_⟩
  · show net.Addr + 2 ^ (31 - net.Masklen) < 2 ^ 32
    omega
  · rw [size_highHalf]
    obtain ⟨q, hq⟩ := Nat.dvd_of_mod_eq_zero h3
    rw [size_eq_two_mul hm] at hq
    show (net.Addr + 2 ^ (31 - net.Masklen)) % 2 ^ (31 - net.Masklen) = 0
    rw [hq, Nat.mul_comm 2, Nat.mul_assoc, Nat.add_mod_right]
    exact Nat.mul_mod_right _ _

/-! ## The scanning loop -/

theorem scan_eq_emit_iff (net : Net) (l : List Net) :
    scan net l = Scan.emit ↔ ∀ x ∈ l, Equals net x = false ∧ Contains net x = false := by
  induction l with
  | nil => simp [scan]
  | cons x rest ih =>
    unfold scan
    by_cases h1 : Equals net x = true
    · simp [h1]
    · by_cases h2 : Contains net x = true
      · simp [h1, h2]
      · simp only [h1, h2, if_false, List.mem_cons, forall_eq_or_imp]
        simp [h1, h2, ih]

theorem scan_eq_stop_imp (net : Net) (l : List Net) (h : scan net l = Scan.stop) :
    net ∈ l := by
  induction l with
  | nil => simp [scan] at h
  | cons x rest ih =>
    unfold scan at h
    by_cases h1 : Equals net x = true
    · rw [(Equals_iff net x).1 h1]
      exact List.mem_cons_self _ _
    · by_cases h2 : Contains net x = true
      · simp [h1, h2] at h
      · simp only [h1, h2, if_false] at h
        exact List.mem_cons_of_mem _ (ih h)

theorem scan_eq_split_imp (net : Net) (l : List Net) (h : scan net l = Scan.split) :
    ∃ x ∈ l, Equals net x = false ∧ Contains net x = true := by
  induction l with
  | nil => simp [scan] at h
  | cons x rest ih =>
    unfold scan at h
    by_cases h1 : Equals net x = true
    · simp [h1] at h
    · by_cases h2 : Contains net x = true
      · exact ⟨x, List.mem_cons_self _ _, by simpa using h1, h2⟩
      · simp only [h1, h2, if_false] at h
        obtain ⟨y, hy, hy2⟩ := ih h
        exact ⟨y, List.mem_cons_of_mem _ hy, hy2⟩

/-! ## The recursion of `Exclude` -/

/-- The recursion equation of the Go function: the depth bound of `Exclude` is
never reached. -/
theorem Exclude_unfold (net : Net) (l : List Net) :
    Exclude net l =
      match scan net l with
      | Scan.stop => []
      | Scan.split => (Split net).flatMap (fun part => Exclude part l)
      | Scan.emit => [net] := by
  unfold Exclude
  rw [ExcludeFuel]
  cases scan net l with
  | stop => rfl
  | emit => rfl
  | split =>
    show (Split net).flatMap (fun part => ExcludeFuel (32 - net.Masklen) part l)
      = (Split net).flatMap (fun part => ExcludeFuel (32 - part.Masklen + 1) part l)
    by_cases hm : 32 ≤ net.Masklen
    · rw [Split_of_ge net hm]
      rfl
    · have hnot : ¬ net.Masklen ≥ 32 := hm
      have hnext : (net.Masklen + 1) % 256 = net.Masklen + 1 := by omega
      have hfuel : 32 - (net.Masklen + 1) + 1 = 32 - net.Masklen := by omega
      simp only [Split, hnot, if_false, hnext, List.flatMap_cons, List.flatMap_nil, hfuel]

theorem Exclude_of_stop {net : Net} {l : List Net} (h : scan net l = Scan.stop) :
    Exclude net l = [] := by
  rw [Exclude_unfold, h]

theorem Exclude_of_emit {net : Net} {l : List Net} (h : scan net l = Scan.emit) :
    Exclude net l = [net] := by
  rw [Exclude_unfold, h]

theorem Exclude_of_split {net : Net} {l : List Net} (hv : Valid net) (hm : net.Masklen < 32)
    (h : scan net l = Scan.split) :
    Exclude net l = Exclude (lowHalf net) l ++ Exclude (highHalf net) l := by
  rw [Exclude_unfold, h]
  simp [Split_eq hv hm]

theorem Exclude_of_split_ge {net : Net} {l : List Net} (hm : 32 ≤ net.Masklen)
    (h : scan net l = Scan.split) : Exclude net l = [] := by
  rw [Exclude_unfold, h]
  simp [Split_of_ge net hm]

/-- Induction along the recursion of `Exclude` from a valid network. -/
theorem Exclude_induct (l : List Net) (P : Net → List Net → Prop)
    (hstop : ∀ net, Valid net → scan net l = Scan.stop → P net [])
    (hemit : ∀ net, Valid net → scan net l = Scan.emit → P net [net])
    (hleaf : ∀ net, Valid net → scan net l = Scan.split → net.Masklen = 32 → P net [])
    (hsplit : ∀ net, Valid net → scan net l = Scan.split → net.Masklen < 32 →
      P (lowHalf net) (Exclude (lowHalf net) l) → P (highHalf net) (Exclude (highHalf net) l) →
      P net (Exclude (lowHalf net) l ++ Exclude (highHalf net) l)) :
    ∀ net, Valid net → P net (Exclude net l) := by
  intro net
  generalize hd : 32 - net.Masklen = d
  induction d generalizing net with
  | zero =>
    intro hv
    have hm : net.Masklen = 32 := by
      have := hv.2.1
      omega
    cases hs : scan net l with
    | stop => rw [Exclude_of_stop hs]; exact hstop net hv hs
    | emit => rw [Exclude_of_emit hs]; exact hemit net hv hs
    | split => rw [Exclude_of_split_ge (by omega) hs]; exact hleaf net hv hs hm
  | succ d ih =>
    intro hv
    have hm : net.Masklen < 32 := by omega
    cases hs : scan net l with
    | stop => rw [Exclude_of_stop hs]; exact hstop net hv hs
    | emit => rw [Exclude_of_emit hs]; exact hemit net hv hs
    | split =>
      rw [Exclude_of_split hv hm hs]
      apply hsplit net hv hs hm
      · exact ih (lowHalf net) (by simp only [lowHalf]; omega) (hv.lowHalf hm)
      · exact ih (highHalf net) (by simp only [highHalf]; omega) (hv.highHalf hm)

/-! ## Where the emitted blocks lie -/

/-- Every emitted block is valid and lies inside the network it was emitted
from, and the emitted blocks follow one another without overlap. -/
theorem Exclude_bounds_sorted (l : List Net) (net : Net) (hv : Valid net) :
    (∀ o ∈ Exclude net l, Valid o ∧ net.Addr ≤ o.Addr ∧
        o.Addr + size o ≤ net.Addr + size net ∧ net.Masklen ≤ o.Masklen) ∧
      List.Pairwise (fun o1 o2 => o1.Addr + size o1 ≤ o2.Addr) (Exclude net l) := by
  revert net
  apply Exclude_induct l (fun net out =>
    (∀ o ∈ out, Valid o ∧ net.Addr ≤ o.Addr ∧
        o.Addr + size o ≤ net.Addr + size net ∧ net.Masklen ≤ o.Masklen) ∧
      List.Pairwise (fun o1 o2 => o1.Addr + size o1 ≤ o2.Addr) out)
  · intro net _ _
    simp
  · intro net hv _
    simp [hv]
  · intro net _ _ _
    simp
  · intro net hv _ hm ihl ihh
    have hsz := size_eq_two_mul hm
    have hlo : (lowHalf net).Addr = net.Addr := rfl
    have hhi : (highHalf net).Addr = net.Addr + 2 ^ (31 - net.Masklen) := rfl
    have hlm : (lowHalf net).Masklen = net.Masklen + 1 := rfl
    have hhm : (highHalf net).Masklen = net.Masklen + 1 := rfl
    rw [size_lowHalf, hlo, hlm] at ihl
    rw [size_highHalf, hhi, hhm] at ihh
    constructor
    · intro o ho
      rcases List.mem_append.1 ho with h | h
      · obtain ⟨h1, h2, h3, h4⟩ := ihl.1 o h
        exact ⟨h1, h2, by omega, by omega⟩
      · obtain ⟨h1, h2, h3, h4⟩ := ihh.1 o h
        exact ⟨h1, by omega, by omega, by omega⟩
    · rw [List.pairwise_append]
      refine ⟨ihl.2, ihh.2, ?_⟩
      intro a ha b hb
      have h1 := (ihl.1 a ha).2.2.1
      have h2 := (ihh.1 b hb).2.1
      omega

theorem Exclude_mem_valid {l : List Net} {net o : Net} (hv : Valid net)
    (ho : o ∈ Exclude net l) : Valid o :=
  ((Exclude_bounds_sorted l net hv).1 o ho).1

/-- An emitted block lies inside the network it was emitted from. -/
theorem Exclude_mem_subset {l : List Net} {net o : Net} (hv : Valid net)
    (ho : o ∈ Exclude net l) (a : Nat) (ha : inRange o a) : inRange net a := by
  obtain ⟨h1, h2, h3, _⟩ := (Exclude_bounds_sorted l net hv).1 o ho
  rw [inRange_iff h1] at ha
  rw [inRange_iff hv]
  omega

/-- Every emitted block is one on which the scanning loop ran to its end. -/
theorem Exclude_mem_scan (l : List Net) (net : Net) (hv : Valid net) :
    ∀ o ∈ Exclude net l, scan o l = Scan.emit := by
  revert net
  apply Exclude_induct l (fun _ out => ∀ o ∈ out, scan o l = Scan.emit)
  · intro net _ _
    simp
  · intro net _ hs
    simpa using hs
  · intro net _ _ _
    simp
  · intro net _ _ _ ihl ihh o ho
    rcases List.mem_append.1 ho with h | h
    · exact ihl o h
    · exact ihh o h

/-! ## Nesting of blocks -/

theorem size_eq_mul (net child : Net) (h : net.Masklen ≤ child.Masklen)
    (hc : child.Masklen ≤ 32) :
    size net = size child * 2 ^ (child.Masklen - net.Masklen) := by
  unfold size
  rw [← pow_add]
  congr 1
  omega

/-- Agreement under a longer mask gives agreement under a shorter one. -/
theorem div_size_coarsen (net child : Net) (h : net.Masklen ≤ child.Masklen)
    (hc : child.Masklen ≤ 32) (a b : Nat) (hab : a / size child = b / size child) :
    a / size net = b / size net := by
  rw [size_eq_mul net child h hc, ← Nat.div_div_eq_div_mul, ← Nat.div_div_eq_div_mul, hab]

/-- Two blocks that share an address are nested: the shorter mask contains the
longer one. -/
theorem Contains_of_common (net child : Net) (h1 : net.Addr < 2 ^ 32)
    (hc1 : child.Addr < 2 ^ 32) (hc2 : child.Masklen ≤ 32) (h : net.Masklen ≤ child.Masklen)
    (b : Nat) (hbn : inRange net b) (hbc : inRange child b) : Contains net child = true := by
  have h2 : net.Masklen ≤ 32 := by omega
  rw [Contains_iff_div net child h1 h2 hc1]
  refine ⟨h, ?_⟩
  rw [inRange_iff_div net b h1 h2] at hbn
  rw [inRange_iff_div child b hc1 hc2] at hbc
  rw [← hbn.2]
  exact (div_size_coarsen net child h hc2 b child.Addr hbc.2).symm

/-- Containment per `Contains` gives inclusion of ranges. -/
theorem inRange_of_Contains (net child : Net) (h1 : net.Addr < 2 ^ 32)
    (hc1 : child.Addr < 2 ^ 32) (hc2 : child.Masklen ≤ 32)
    (h : Contains net child = true) (a : Nat) (ha : inRange child a) : inRange net a := by
  have hle : net.Masklen ≤ child.Masklen := by
    unfold Contains at h
    by_contra hne
    simp [hne] at h
  have h2 : net.Masklen ≤ 32 := by omega
  rw [Contains_iff_div net child h1 h2 hc1] at h
  rw [inRange_iff_div child a hc1 hc2] at ha
  rw [inRange_iff_div net a h1 h2]
  refine ⟨ha.1, ?_⟩
  rw [← h.2]
  exact div_size_coarsen net child hle hc2 a child.Addr ha.2

/-- A valid network contains itself only: with equal mask lengths `Contains`
between valid networks is equality. -/
theorem eq_of_Contains_of_Masklen_eq {net child : Net} (hv : Valid net) (hc : Valid child)
    (h : Contains net child = true) (hm : child.Masklen ≤ net.Masklen) : net = child := by
  rw [Contains_iff hv child hc.1] at h
  obtain ⟨h1, h2, h3⟩ := h
  have hmeq : net.Masklen = child.Masklen := by omega
  have hsz : size child = size net := by unfold size; rw [hmeq]
  have hmod := ((Valid_iff child).1 hc).2.2
  have hmodn := ((Valid_iff net).1 hv).2.2
  rw [hsz] at hmod
  have heq : child.Addr / size net = net.Addr / size net :=
    (div_eq_div_iff_of_aligned child.Addr net.Addr (size net) (size_pos net) hmodn).2 ⟨h2, h3⟩
  have e1 := Nat.div_add_mod child.Addr (size net)
  have e2 := Nat.div_add_mod net.Addr (size net)
  rw [heq, hmod] at e1
  rw [hmodn] at e2
  cases net
  cases child
  simp only [Net.mk.injEq]
  simp only at hmeq e1 e2
  omega

/-! ## Coverage -/

/-- Every address of a valid network is in an emitted block or in an
exclusion. -/
theorem Exclude_cover (l : List Net) (hl : ∀ x ∈ l, Valid x) (net : Net) (hv : Valid net) :
    ∀ a, inRange net a → (∃ o ∈ Exclude net l, inRange o a) ∨ (∃ x ∈ l, inRange x a) := by
  revert net
  apply Exclude_induct l (fun net out =>
    ∀ a, inRange net a → (∃ o ∈ out, inRange o a) ∨ (∃ x ∈ l, inRange x a))
  · intro net _ hs a ha
    exact Or.inr ⟨net, scan_eq_stop_imp net l hs, ha⟩
  · intro net _ _ a ha
    exact Or.inl ⟨net, List.mem_singleton.2 rfl, ha⟩
  · intro net hv hs hm a _
    exfalso
    obtain ⟨x, hx, hne, hc⟩ := scan_eq_split_imp net l hs
    have hxv := hl x hx
    have hle : x.Masklen ≤ net.Masklen := by
      have := hxv.2.1
      omega
    have := eq_of_Contains_of_Masklen_eq hv hxv hc hle
    rw [← Equals_iff] at this
    rw [this] at hne
    exact Bool.noConfusion hne
  · intro net hv _ hm ihl ihh a ha
    rw [inRange_iff hv, size_eq_two_mul hm] at ha
    by_cases hlt : a < net.Addr + 2 ^ (31 - net.Masklen)
    · have hin : inRange (lowHalf net) a := by
        rw [inRange_iff (hv.lowHalf hm), size_lowHalf]
        exact ⟨ha.1, hlt⟩
      rcases ihl a hin with ⟨o, ho, hoa⟩ | h
      · exact Or.inl ⟨o, List.mem_append_left _ ho, hoa⟩
      · exact Or.inr h
    · have hin : inRange (highHalf net) a := by
        rw [inRange_iff (hv.highHalf hm), size_highHalf]
        show net.Addr + 2 ^ (31 - net.Masklen) ≤ a ∧
          a < net.Addr + 2 ^ (31 - net.Masklen) + 2 ^ (31 - net.Masklen)
        omega
      rcases ihh a hin with ⟨o, ho, hoa⟩ | h
      · exact Or.inl ⟨o, List.mem_append_right _ ho, hoa⟩
      · exact Or.inr h

/-! ## The argument loop of `main` -/

theorem mainLoop_returned (N : Net) (E : List Net) (hE : ∀ x ∈ E, Valid x)
    (hX : ∃ x ∈ E, Contains x N = true) (acc : List Net) :
    mainLoop N (E.map Net.toArg) acc = Outcome.returned := by
  induction E generalizing acc with
  | nil =>
    obtain ⟨x, hx, _⟩ := hX
    simp at hx
  | cons y rest ih =>
    obtain ⟨_, hy2, hy3⟩ := hE y (List.mem_cons_self _ _)
    have hnot : ¬ y.Masklen > 32 := by omega
    have hmod : y.Masklen % 256 = y.Masklen := by omega
    have hy : (⟨y.Addr, y.Masklen⟩ : Net) = y := rfl
    simp only [List.map_cons, Net.toArg, mainLoop, hnot, if_false, hmod, hy, hy3,
      Bool.not_true]
    by_cases hc : Contains y N = true
    · simp [hc]
    · have hrest : ∃ x ∈ rest, Contains x N = true := by
        obtain ⟨x, hx, hxc⟩ := hX
        rcases List.mem_cons.1 hx with h | h
        · rw [h] at hxc
          exact absurd hxc hc
        · exact ⟨x, h, hxc⟩
      simp only [hc, if_false]
      exact ih (fun x hx => hE x (List.mem_cons_of_mem _ hx)) hrest _

theorem main_returned (N : Net) (E : List Net) (hN : Valid N) (hE : ∀ x ∈ E, Valid x)
    (hX : ∃ x ∈ E, Contains x N = true) :
    main N.toArg (E.map Net.toArg) = Outcome.returned := by
  obtain ⟨_, h2, h3⟩ := hN
  have hlen : ¬ (E.map Net.toArg).length + 2 < 3 := by
    obtain ⟨x, hx, _⟩ := hX
    have := List.length_pos_of_mem hx
    simp only [List.length_map]
    omega
  have hnot : ¬ N.Masklen > 32 := by omega
  have hmod : N.Masklen % 256 = N.Masklen := by omega
  have hn : (⟨N.Addr, N.Masklen⟩ : Net) = N := rfl
  unfold main
  simp only [hlen, if_false, Net.toArg, hnot, hmod, hn, h3, Bool.not_true]
  exact mainLoop_returned N E hE hX []

theorem Contains_zero (N : Net) : Contains ⟨0, 0⟩ N = true := by
  have h : Mask 0 = 0 := by decide
  simp [Contains, h]

/-! ## One exclusion -/

theorem scan_single (net x : Net) :
    scan net [x] =
      if Equals net x then Scan.stop else if Contains net x then Scan.split else Scan.emit := by
  simp [scan]

/-- A network that does not contain the only exclusion is emitted. -/
theorem Exclude_single_of_not_Contains (net x : Net) (h : Contains net x = false) :
    Exclude net [x] = [net] := by
  apply Exclude_of_emit
  rw [scan_eq_emit_iff]
  intro y hy
  rw [List.mem_singleton] at hy
  subst hy
  refine ⟨?_, h⟩
  cases he : Equals net y with
  | false => rfl
  | true =>
    rw [(Equals_iff net y).1 he, Contains_self] at h
    exact Bool.noConfusion h

/-- A valid network of shorter mask that contains the only exclusion is
split. -/
theorem scan_single_split {net x : Net} (hm : net.Masklen < x.Masklen)
    (hc : Contains net x = true) : scan net [x] = Scan.split := by
  have he : Equals net x = false := by
    cases he : Equals net x with
    | false => rfl
    | true =>
      rw [(Equals_iff net x).1 he] at hm
      omega
  rw [scan_single, he, hc]
  rfl

/-- Which half holds a contained exclusion of longer mask. -/
theorem Contains_half {net x : Net} (hv : Valid net) (hx : x.Addr < 2 ^ 32)
    (hm : net.Masklen < x.Masklen) (hm32 : net.Masklen < 32) (hc : Contains net x = true) :
    (Contains (lowHalf net) x = true ∧ Contains (highHalf net) x = false) ∨
    (Contains (lowHalf net) x = false ∧ Contains (highHalf net) x = true) := by
  rw [Contains_iff hv x hx, size_eq_two_mul hm32] at hc
  have hl := Contains_iff (hv.lowHalf hm32) x hx
  have hh := Contains_iff (hv.highHalf hm32) x hx
  rw [size_lowHalf] at hl
  rw [size_highHalf] at hh
  have hlo : (lowHalf net).Addr = net.Addr := rfl
  have hhi : (highHalf net).Addr = net.Addr + 2 ^ (31 - net.Masklen) := rfl
  have hlm : (lowHalf net).Masklen = net.Masklen + 1 := rfl
  have hhm : (highHalf net).Masklen = net.Masklen + 1 := rfl
  rw [hlo, hlm] at hl
  rw [hhi, hhm] at hh
  by_cases hlt : x.Addr < net.Addr + 2 ^ (31 - net.Masklen)
  · left
    refine ⟨hl.2 ⟨by omega, hc.2.1, hlt⟩, ?_⟩
    cases hb : Contains (highHalf net) x with
    | false => rfl
    | true =>
      have := hh.1 hb
      omega
  · right
    refine ⟨?_, hh.2 ⟨by omega, by omega, by omega⟩⟩
    cases hb : Contains (lowHalf net) x with
    | false => rfl
    | true =>
      have := hl.1 hb
      omega

/-- Excluding one contained network of mask length `q` from a valid network of
mask length `p ≤ q` leaves one block of each mask length `p+1, ..., q`. -/
theorem Exclude_single_aux (X : Net) (hX : Valid X) (d : Nat) :
    ∀ net : Net, Valid net → net.Masklen ≤ X.Masklen → Contains net X = true →
      X.Masklen - net.Masklen = d →
      (Exclude net [X]).length = d ∧
      ((Exclude net [X]).map Net.Masklen).Perm (List.range' (net.Masklen + 1) d) := by
  induction d with
  | zero =>
    intro net hv hle hc hd
    have heq := eq_of_Contains_of_Masklen_eq hv hX hc (by omega)
    rw [heq, Exclude_of_stop (by simp [scan, Equals_self])]
    simp
  | succ d ih =>
    intro net hv hle hc hd
    have hX32 := hX.2.1
    have hm : net.Masklen < X.Masklen := by omega
    have hm32 : net.Masklen < 32 := by omega
    rw [Exclude_of_split hv hm32 (scan_single_split hm hc)]
    have hlm : (lowHalf net).Masklen = net.Masklen + 1 := rfl
    have hhm : (highHalf net).Masklen = net.Masklen + 1 := rfl
    have hr : List.range' (net.Masklen + 1) (d + 1)
        = (net.Masklen + 1) :: List.range' (net.Masklen + 1 + 1) d := rfl
    rcases Contains_half hv hX.1 hm hm32 hc with ⟨h1, h2⟩ | ⟨h1, h2⟩
    · obtain ⟨ihl, ihp⟩ := ih (lowHalf net) (hv.lowHalf hm32) (by rw [hlm]; omega) h1
        (by rw [hlm]; omega)
      rw [Exclude_single_of_not_Contains _ _ h2]
      constructor
      · rw [List.length_append, ihl]
        rfl
      · rw [List.map_append, hr]
        rw [hlm] at ihp
        refine List.Perm.trans List.perm_append_comm ?_
        exact List.Perm.cons _ ihp
    · obtain ⟨ihl, ihp⟩ := ih (highHalf net) (hv.highHalf hm32) (by rw [hhm]; omega) h2
        (by rw [hhm]; omega)
      rw [Exclude_single_of_not_Contains _ _ h1]
      constructor
      · rw [List.length_append, ihl, Nat.add_comm]
        rfl
      · rw [List.map_append, hr]
        rw [hhm] at ihp
        exact List.Perm.cons _ ihp

/-! ## Parents of emitted blocks -/

/-- An emitted block is the base network itself or a half of a valid network
that the traversal split. -/
theorem Exclude_mem_parent (l : List Net) (net : Net) (hv : Valid net) :
    ∀ o ∈ Exclude net l, o = net ∨
      ∃ P, Valid P ∧ P.Masklen < 32 ∧ scan P l = Scan.split ∧
        (o = lowHalf P ∨ o = highHalf P) := by
  revert net
  apply Exclude_induct l (fun net out => ∀ o ∈ out, o = net ∨
      ∃ P, Valid P ∧ P.Masklen < 32 ∧ scan P l = Scan.split ∧
        (o = lowHalf P ∨ o = highHalf P))
  · intro net _ _
    simp
  · intro net _ _ o ho
    exact Or.inl (List.mem_singleton.1 ho)
  · intro net _ _ _
    simp
  · intro net hv hs hm ihl ihh o ho
    right
    rcases List.mem_append.1 ho with h | h
    · rcases ihl o h with h1 | h1
      · exact ⟨net, hv, hm, hs, Or.inl h1⟩
      · exact h1
    · rcases ihh o h with h1 | h1
      · exact ⟨net, hv, hm, hs, Or.inr h1⟩
      · exact h1

/-- A block is a half of at most one valid network. -/
theorem parent_unique {P Q : Net} (hP : Valid P) (hQ : Valid Q) (hPm : P.Masklen < 32)
    (hQm : Q.Masklen < 32) (c : Net) (hcP : c = lowHalf P ∨ c = highHalf P)
    (hcQ : c = lowHalf Q ∨ c = highHalf Q) : P = Q := by
  have hmP : c.Masklen = P.Masklen + 1 := by
    rcases hcP with h | h <;> rw [h] <;> rfl
  have hmQ : c.Masklen = Q.Masklen + 1 := by
    rcases hcQ with h | h <;> rw [h] <;> rfl
  have hm : P.Masklen = Q.Masklen := by omega
  have hmodP := ((Valid_iff P).1 hP).2.2
  have hmodQ := ((Valid_iff Q).1 hQ).2.2
  rw [size_eq_two_mul hPm] at hmodP
  rw [size_eq_two_mul hQm, ← hm] at hmodQ
  have hpos : 0 < 2 ^ (31 - P.Masklen) := Nat.pos_pow_of_pos _ (by norm_num)
  have haP : c.Addr = P.Addr ∨ c.Addr = P.Addr + 2 ^ (31 - P.Masklen) := by
    rcases hcP with h | h
    · left; rw [h]; rfl
    · right; rw [h]; rfl
  have haQ : c.Addr = Q.Addr ∨ c.Addr = Q.Addr + 2 ^ (31 - P.Masklen) := by
    rcases hcQ with h | h
    · left; rw [h]; rfl
    · right; rw [h, hm]; rfl
  generalize 2 ^ (31 - P.Masklen) = h at hmodP hmodQ hpos haP haQ
  have e1 := Nat.div_add_mod P.Addr (2 * h)
  have e2 := Nat.div_add_mod Q.Addr (2 * h)
  rw [hmodP] at e1
  rw [hmodQ] at e2
  have hA : P.Addr = Q.Addr := by
    rcases haP with h1 | h1 <;> rcases haQ with h2 | h2
    · omega
    · exfalso
      have h3 : h * (2 * (P.Addr / (2 * h))) = h * (2 * (Q.Addr / (2 * h)) + 1) := by
        have : P.Addr = Q.Addr + h := by omega
        rw [← e1, ← e2] at this
        rw [Nat.mul_add, Nat.mul_one, ← Nat.mul_assoc, ← Nat.mul_assoc, Nat.mul_comm h 2]
        omega
      have := Nat.eq_of_mul_eq_mul_left hpos h3
      omega
    · exfalso
      have h3 : h * (2 * (Q.Addr / (2 * h))) = h * (2 * (P.Addr / (2 * h)) + 1) := by
        have : Q.Addr = P.Addr + h := by omega
        rw [← e1, ← e2] at this
        rw [Nat.mul_add, Nat.mul_one, ← Nat.mul_assoc, ← Nat.mul_assoc, Nat.mul_comm h 2]
        omega
      have := Nat.eq_of_mul_eq_mul_left hpos h3
      omega
    · omega
  cases P
  cases Q
  simp only [Net.mk.injEq]
  exact ⟨hA, hm⟩

/-- The two halves of a valid network are never both emitted. -/
theorem not_both_halves (l : List Net) (hl : ∀ x ∈ l, Valid x) (net : Net) (hv : Valid net)
    (P : Net) (hP : Valid P) (hPm : P.Masklen < 32) (h1 : lowHalf P ∈ Exclude net l)
    (h2 : highHalf P ∈ Exclude net l) : False := by
  have hsz := size_eq_two_mul hPm
  have hpos : 0 < 2 ^ (31 - P.Masklen) := Nat.pos_pow_of_pos _ (by norm_num)
  have hlo : (lowHalf P).Addr = P.Addr := rfl
  have hhi : (highHalf P).Addr = P.Addr + 2 ^ (31 - P.Masklen) := rfl
  have hlm : (lowHalf P).Masklen = P.Masklen + 1 := rfl
  have hhm : (highHalf P).Masklen = P.Masklen + 1 := rfl
  have hsplit : scan P l = Scan.split := by
    rcases Exclude_mem_parent l net hv _ h1 with h | ⟨Q, hQ, hQm, hQs, hQc⟩
    · exfalso
      obtain ⟨_, h3, h4, _⟩ := (Exclude_bounds_sorted l net hv).1 _ h2
      rw [← h, size_highHalf, size_lowHalf, hlo, hhi] at h4
      omega
    · rw [parent_unique hP hQ hPm hQm (lowHalf P) (Or.inl rfl) hQc]
      exact hQs
  obtain ⟨x, hx, hne, hc⟩ := scan_eq_split_imp P l hsplit
  have hxv := hl x hx
  have hlt : P.Masklen < x.Masklen := by
    by_contra hge
    have := eq_of_Contains_of_Masklen_eq hP hxv hc (by omega)
    rw [← Equals_iff] at this
    rw [this] at hne
    exact Bool.noConfusion hne
  have hs1 := (scan_eq_emit_iff _ l).1 (Exclude_mem_scan l net hv _ h1) x hx
  have hs2 := (scan_eq_emit_iff _ l).1 (Exclude_mem_scan l net hv _ h2) x hx
  rcases Contains_half hP hxv.1 hlt hPm hc with ⟨h3, _⟩ | ⟨_, h3⟩
  · rw [h3] at hs1
    exact Bool.noConfusion hs1.2
  · rw [h3] at hs2
    exact Bool.noConfusion hs2.2

/-- When both results of `Split` are valid blocks and differ, the split
network is valid. -/
theorem Valid_of_Split {P A B : Net} (hS : Split P = [A, B]) (hA : Valid A) (hne : A ≠ B) :
    Valid P ∧ P.Masklen < 32 := by
  have hm : P.Masklen < 32 := by
    by_contra hge
    rw [Split_of_ge P (by omega)] at hS
    exact List.noConfusion hS
  refine ⟨?_, hm⟩
  have hnot : ¬ P.Masklen ≥ 32 := by omega
  have hnext : (P.Masklen + 1) % 256 = P.Masklen + 1 := by omega
  have hbit := Split_bit P.Masklen hm
  rw [hnext] at hbit
  unfold Split at hS
  simp only [hnot, if_false, hnext, hbit, List.cons.injEq, and_true] at hS
  obtain ⟨hA1, hB1⟩ := hS
  obtain ⟨ha1, ha2, ha3⟩ := (Valid_iff A).1 hA
  rw [← hA1] at ha1 ha3
  have hszA : size (⟨P.Addr, P.Masklen + 1⟩ : Net) = 2 ^ (31 - P.Masklen) := size_lowHalf P
  rw [hszA] at ha3
  simp only at ha1 ha3
  rw [Valid_iff]
  refine ⟨ha1, by omega, ?_⟩
  rw [size_eq_two_mul hm]
  have hpos : 0 < 2 ^ (31 - P.Masklen) := Nat.pos_pow_of_pos _ (by norm_num)
  have hlt : 2 ^ (31 - P.Masklen) < 2 ^ (31 - P.Masklen + 1) :=
    Nat.pow_lt_pow_right (by norm_num) (by omega)
  obtain ⟨q, hq⟩ := Nat.dvd_of_mod_eq_zero ha3
  rcases Nat.even_or_odd' q with ⟨r, hr | hr⟩
  · rw [hq, hr, ← Nat.mul_assoc, Nat.mul_comm _ 2]
    exact Nat.mul_mod_right _ _
  · exfalso
    apply hne
    rw [← hA1, ← hB1]
    simp only [Net.mk.injEq, and_true]
    have e : P.Addr = 2 ^ (31 - P.Masklen + 1) * r ||| 2 ^ (31 - P.Masklen) := by
      rw [← Nat.mul_add_lt_is_or hlt r, hq, hr, pow_succ]
      ring
    rw [e, Nat.or_assoc, Nat.or_self]

/-! ## Claims -/

/-- C1 (the code departs from the claim): for the base 10.0.0.0/23 and the
exclusions 10.0.0.0/25, 10.0.0.0/24, all valid and neither exclusion containing
the base, the program emits 10.0.0.128/25 and 10.0.1.0/24.  The address
10.0.0.128 lies in an emitted block although it lies in the exclusion
10.0.0.0/24, so the emitted blocks are not the set difference. -/
theorem Exclude_nested_emits_excluded :
    Valid ⟨0x0A000000, 23⟩ ∧
    (∀ x ∈ [(⟨0x0A000000, 25⟩ : Net), ⟨0x0A000000, 24⟩],
      Valid x ∧ Contains x ⟨0x0A000000, 23⟩ = false) ∧
    main (Net.toArg ⟨0x0A000000, 23⟩)
        [Net.toArg ⟨0x0A000000, 25⟩, Net.toArg ⟨0x0A000000, 24⟩]
      = Outcome.ran [⟨0x0A000080, 25⟩, ⟨0x0A000100, 24⟩] ∧
    Exclude ⟨0x0A000000, 23⟩ [⟨0x0A000000, 25⟩, ⟨0x0A000000, 24⟩]
      = [⟨0x0A000080, 25⟩, ⟨0x0A000100, 24⟩] ∧
    inRange ⟨0x0A000080, 25⟩ 0x0A000080 ∧
    inRange ⟨0x0A000000, 24⟩ 0x0A000080 := by
  decide

/-- C2: for a valid base network `N` and valid exclusions `E` none of which
contains `N`, the emitted blocks have pairwise disjoint ranges, and an address
lies in an emitted block or in an exclusion that intersects `N` exactly when it
lies in the range of `N`. -/
theorem Exclude_partition (N : Net) (E : List Net) (hN : Valid N)
    (hE : ∀ x ∈ E, Valid x ∧ Contains x N = false) :
    List.Pairwise (fun o1 o2 => ∀ a, ¬ (inRange o1 a ∧ inRange o2 a)) (Exclude N E) ∧
    ∀ a, ((∃ o ∈ Exclude N E, inRange o a) ∨
        (∃ x ∈ E, (∃ b, inRange x b ∧ inRange N b) ∧ inRange x a)) ↔ inRange N a := by
  have hbs := Exclude_bounds_sorted E N hN
  constructor
  · refine List.Pairwise.imp_of_mem ?_ hbs.2
    intro o1 o2 h1 h2 hle a ha
    have hv1 := (hbs.1 o1 h1).1
    have hv2 := (hbs.1 o2 h2).1
    rw [inRange_iff hv1, inRange_iff hv2] at ha
    omega
  · intro a
    constructor
    · rintro (⟨o, ho, hoa⟩ | ⟨x, hx, ⟨b, hbx, hbN⟩, hxa⟩)
      · exact Exclude_mem_subset hN ho a hoa
      · obtain ⟨hxv, hxc⟩ := hE x hx
        have hlt : N.Masklen ≤ x.Masklen := by
          by_contra hgt
          have := Contains_of_common x N hxv.1 hN.1 hN.2.1 (by omega) b hbx hbN
          rw [this] at hxc
          exact Bool.noConfusion hxc
        have hc := Contains_of_common N x hN.1 hxv.1 hxv.2.1 hlt b hbN hbx
        exact inRange_of_Contains N x hN.1 hxv.1 hxv.2.1 hc a hxa
    · intro ha
      rcases Exclude_cover E (fun x hx => (hE x hx).1) N hN a ha with h | ⟨x, hx, hxa⟩
      · exact Or.inl h
      · exact Or.inr ⟨x, hx, ⟨a, hxa, ha⟩, hxa⟩

/-- Witness for C2: base 10.0.0.0/24 with the exclusions 10.0.0.128/25 and
10.0.0.5. -/
theorem Exclude_partition_witness :
    List.Pairwise (fun o1 o2 => ∀ a, ¬ (inRange o1 a ∧ inRange o2 a))
      (Exclude ⟨0x0A000000, 24⟩ [⟨0x0A000080, 25⟩, ⟨0x0A000005, 32⟩]) ∧
    ∀ a, ((∃ o ∈ Exclude ⟨0x0A000000, 24⟩ [⟨0x0A000080, 25⟩, ⟨0x0A000005, 32⟩], inRange o a) ∨
        (∃ x ∈ [(⟨0x0A000080, 25⟩ : Net), ⟨0x0A000005, 32⟩],
          (∃ b, inRange x b ∧ inRange ⟨0x0A000000, 24⟩ b) ∧ inRange x a)) ↔
      inRange ⟨0x0A000000, 24⟩ a :=
  Exclude_partition ⟨0x0A000000, 24⟩ [⟨0x0A000080, 25⟩, ⟨0x0A000005, 32⟩]
    (by decide) (by decide)

/-- C4: for a valid base network and any exclusion list the emitted sequence
is strictly ascending by address, and when the network is split into `A` (low
half, address unchanged) and `B` (high half, new bit set) the output is the
output of `A` followed by the output of `B`, every block of the first before
and below every block of the second. -/
theorem Exclude_ascending (N : Net) (E : List Net) (hN : Valid N) :
    List.Pairwise (fun o1 o2 => o1.Addr < o2.Addr) (Exclude N E) ∧
    (∀ A B, Split N = [A, B] → scan N E = Scan.split →
      A.Addr = N.Addr ∧ B.Addr = N.Addr + 2 ^ (31 - N.Masklen) ∧
      Exclude N E = Exclude A E ++ Exclude B E ∧
      ∀ o1 ∈ Exclude A E, ∀ o2 ∈ Exclude B E, o1.Addr < o2.Addr) := by
  have hbs := Exclude_bounds_sorted E N hN
  have hlt : List.Pairwise (fun o1 o2 => o1.Addr < o2.Addr) (Exclude N E) := by
    refine List.Pairwise.imp ?_ hbs.2
    intro o1 o2 hle
    have := size_pos o1
    omega
  refine ⟨hlt, ?_⟩
  intro A B hAB hs
  have hun : Exclude N E = Exclude A E ++ Exclude B E := by
    rw [Exclude_unfold N E, hs]
    simp [hAB]
  have hm : N.Masklen < 32 := by
    by_contra hge
    rw [Split_of_ge N (by omega)] at hAB
    exact List.noConfusion hAB
  rw [Split_eq hN hm] at hAB
  simp only [List.cons.injEq, and_true] at hAB
  refine ⟨by rw [← hAB.1]; rfl, by rw [← hAB.2]; rfl, hun, ?_⟩
  rw [hun, List.pairwise_append] at hlt
  exact hlt.2.2

/-- Witness for C4: base 10.0.0.0/24 with the exclusion 10.0.0.5, split into
10.0.0.0/25 and 10.0.0.128/25. -/
theorem Exclude_ascending_witness :
    List.Pairwise (fun o1 o2 => o1.Addr < o2.Addr)
      (Exclude ⟨0x0A000000, 24⟩ [⟨0x0A000005, 32⟩]) ∧
    Exclude ⟨0x0A000000, 24⟩ [⟨0x0A000005, 32⟩]
      = Exclude ⟨0x0A000000, 25⟩ [⟨0x0A000005, 32⟩]
        ++ Exclude ⟨0x0A000080, 25⟩ [⟨0x0A000005, 32⟩] ∧
    ∀ o1 ∈ Exclude ⟨0x0A000000, 25⟩ [⟨0x0A000005, 32⟩],
      ∀ o2 ∈ Exclude ⟨0x0A000080, 25⟩ [⟨0x0A000005, 32⟩], o1.Addr < o2.Addr :=
  ⟨(Exclude_ascending ⟨0x0A000000, 24⟩ [⟨0x0A000005, 32⟩] (by decide)).1,
    ((Exclude_ascending ⟨0x0A000000, 24⟩ [⟨0x0A000005, 32⟩] (by decide)).2
      ⟨0x0A000000, 25⟩ ⟨0x0A000080, 25⟩ (by decide) (by decide)).2.2⟩

/-- C5 (the code departs from the claim): 10.0.0.0/24 is an element of the
exclusion list [10.0.0.0/25, 10.0.0.0/24], yet `Exclude` on 10.0.0.0/24 does
not stop: the loop breaks at the contained 10.0.0.0/25 before it reaches the
equal element, the network is split and 10.0.0.128/25 is emitted.  The call is
the one made on the low half when the base is 10.0.0.0/23. -/
theorem Exclude_equal_after_contained :
    (⟨0x0A000000, 24⟩ : Net) ∈ [(⟨0x0A000000, 25⟩ : Net), ⟨0x0A000000, 24⟩] ∧
    scan ⟨0x0A000000, 24⟩ [⟨0x0A000000, 25⟩, ⟨0x0A000000, 24⟩] = Scan.split ∧
    Exclude ⟨0x0A000000, 24⟩ [⟨0x0A000000, 25⟩, ⟨0x0A000000, 24⟩]
      = [⟨0x0A000080, 25⟩] ∧
    Split ⟨0x0A000000, 23⟩ = [⟨0x0A000000, 24⟩, ⟨0x0A000100, 24⟩] ∧
    scan ⟨0x0A000000, 23⟩ [⟨0x0A000000, 25⟩, ⟨0x0A000000, 24⟩] = Scan.split := by
  decide

/-- C6: excluding a network from itself emits nothing, for every network. -/
theorem Exclude_self (N : Net) : Exclude N [N] = [] := by
  apply Exclude_of_stop
  simp [scan, Equals_self]

/-- C7: when no exclusion equals the valid network `N` and none is contained
in it, `Exclude` emits exactly `[N]`; in particular with no exclusion at all. -/
theorem Exclude_no_match (N : Net) (E : List Net) (_hN : Valid N)
    (hE : ∀ x ∈ E, Equals N x = false ∧ Contains N x = false) :
    Exclude N E = [N] ∧ Exclude N [] = [N] := by
  constructor
  · exact Exclude_of_emit ((scan_eq_emit_iff N E).2 hE)
  · exact Exclude_of_emit rfl

/-- Witness for C7: 10.0.0.0/24 with the unrelated exclusion 192.168.0.0/16. -/
theorem Exclude_no_match_witness :
    Exclude ⟨0x0A000000, 24⟩ [⟨0xC0A80000, 16⟩] = [⟨0x0A000000, 24⟩] ∧
    Exclude ⟨0x0A000000, 24⟩ [] = [⟨0x0A000000, 24⟩] :=
  Exclude_no_match ⟨0x0A000000, 24⟩ [⟨0xC0A80000, 16⟩] (by decide) (by decide)

/-- C10: with a valid base network and valid exclusion arguments, if some
exclusion contains the base network then `main` returns inside its argument
loop, before `Exclude` is called, and prints nothing; this is so in particular
when 0.0.0.0/0 is among the exclusions. -/
theorem main_full_containment (N : Net) (E : List Net) (hN : Valid N)
    (hE : ∀ x ∈ E, Valid x) :
    ((∃ x ∈ E, Contains x N = true) →
      main N.toArg (E.map Net.toArg) = Outcome.returned ∧
      (main N.toArg (E.map Net.toArg)).output = []) ∧
    ((⟨0, 0⟩ : Net) ∈ E →
      main N.toArg (E.map Net.toArg) = Outcome.returned ∧
      (main N.toArg (E.map Net.toArg)).output = []) := by
  have key : (∃ x ∈ E, Contains x N = true) →
      main N.toArg (E.map Net.toArg) = Outcome.returned ∧
      (main N.toArg (E.map Net.toArg)).output = [] := by
    intro hX
    have h := main_returned N E hN hE hX
    rw [h]
    exact ⟨rfl, rfl⟩
  exact ⟨key, fun h0 => key ⟨⟨0, 0⟩, h0, Contains_zero N⟩⟩

/-- Witness for C10: base 10.0.0.0/24 with the exclusions 10.0.0.5 and
0.0.0.0/0. -/
theorem main_full_containment_witness :
    main (Net.toArg ⟨0x0A000000, 24⟩)
        [Net.toArg ⟨0x0A000005, 32⟩, Net.toArg ⟨0, 0⟩] = Outcome.returned ∧
    (main (Net.toArg ⟨0x0A000000, 24⟩)
        [Net.toArg ⟨0x0A000005, 32⟩, Net.toArg ⟨0, 0⟩]).output = [] :=
  (main_full_containment ⟨0x0A000000, 24⟩ [⟨0x0A000005, 32⟩, ⟨0, 0⟩]
    (by decide) (by decide)).1 (by decide)

/-- C8: for a valid network `N` below /32 with `Split N = [A, B]`, excluding
`B` leaves exactly `A` and excluding `A` leaves exactly `B`. -/
theorem Exclude_half (N A B : Net) (hN : Valid N) (hm : N.Masklen < 32)
    (hS : Split N = [A, B]) : Exclude N [B] = [A] ∧ Exclude N [A] = [B] := by
  rw [Split_eq hN hm] at hS
  simp only [List.cons.injEq, and_true] at hS
  obtain ⟨hA, hB⟩ := hS
  subst hA
  subst hB
  have hlv := hN.lowHalf hm
  have hhv := hN.highHalf hm
  have hlm : (lowHalf N).Masklen = N.Masklen + 1 := rfl
  have hhm : (highHalf N).Masklen = N.Masklen + 1 := rfl
  have hpos : 0 < 2 ^ (31 - N.Masklen) := Nat.pos_pow_of_pos _ (by norm_num)
  have hlo : (lowHalf N).Addr = N.Addr := rfl
  have hhi : (highHalf N).Addr = N.Addr + 2 ^ (31 - N.Masklen) := rfl
  have hsz := size_eq_two_mul hm
  have hNl : Contains N (lowHalf N) = true := by
    rw [Contains_iff hN _ hlv.1, hlo, hlm]
    have := size_pos N
    omega
  have hNh : Contains N (highHalf N) = true := by
    rw [Contains_iff hN _ hhv.1, hhi, hhm]
    omega
  have hlh : Contains (lowHalf N) (highHalf N) = false := by
    cases hb : Contains (lowHalf N) (highHalf N) with
    | false => rfl
    | true =>
      rw [Contains_iff hlv _ hhv.1, size_lowHalf, hlo, hhi] at hb
      omega
  have hhl : Contains (highHalf N) (lowHalf N) = false := by
    cases hb : Contains (highHalf N) (lowHalf N) with
    | false => rfl
    | true =>
      rw [Contains_iff hhv _ hlv.1, size_highHalf, hlo, hhi] at hb
      omega
  constructor
  · rw [Exclude_of_split hN hm (scan_single_split (by rw [hhm]; omega) hNh),
      Exclude_single_of_not_Contains _ _ hlh, Exclude_self]
    rfl
  · rw [Exclude_of_split hN hm (scan_single_split (by rw [hlm]; omega) hNl),
      Exclude_single_of_not_Contains _ _ hhl, Exclude_self]
    rfl

/-- Witness for C8 (concrete scenario 1): excluding 10.0.0.128/25 from
10.0.0.0/24 leaves 10.0.0.0/25, and excluding 10.0.0.0/25 leaves
10.0.0.128/25. -/
theorem Exclude_half_witness :
    Exclude ⟨0x0A000000, 24⟩ [⟨0x0A000080, 25⟩] = [⟨0x0A000000, 25⟩] ∧
    Exclude ⟨0x0A000000, 24⟩ [⟨0x0A000000, 25⟩] = [⟨0x0A000080, 25⟩] :=
  Exclude_half ⟨0x0A000000, 24⟩ ⟨0x0A000000, 25⟩ ⟨0x0A000080, 25⟩
    (by decide) (by decide) (by decide)

/-- C9: for a valid network `N` of mask length `p` and a valid exclusion `X`
of mask length `q > p` contained in `N`, `Exclude N [X]` emits exactly `q - p`
blocks, whose mask lengths are `p+1, ..., q`, each once. -/
theorem Exclude_single_fragmentation (N X : Net) (hN : Valid N) (hX : Valid X)
    (hpq : N.Masklen < X.Masklen) (hc : Contains N X = true) :
    (Exclude N [X]).length = X.Masklen - N.Masklen ∧
    ((Exclude N [X]).map Net.Masklen).Perm
      (List.range' (N.Masklen + 1) (X.Masklen - N.Masklen)) :=
  Exclude_single_aux X hX (X.Masklen - N.Masklen) N hN (Nat.le_of_lt hpq) hc rfl

/-- Witness for C9: excluding the host 10.0.0.5 from 10.0.0.0/24 emits 8
blocks, of mask lengths 25 to 32. -/
theorem Exclude_single_fragmentation_witness :
    (Exclude ⟨0x0A000000, 24⟩ [⟨0x0A000005, 32⟩]).length = 8 ∧
    ((Exclude ⟨0x0A000000, 24⟩ [⟨0x0A000005, 32⟩]).map Net.Masklen).Perm
      [25, 26, 27, 28, 29, 30, 31, 32] :=
  Exclude_single_fragmentation ⟨0x0A000000, 24⟩ ⟨0x0A000005, 32⟩
    (by decide) (by decide) (by decide) (by decide)

/-- C3: for a valid base network `N` and valid exclusions `E`, no two emitted
blocks are the two results of `Split` of one network, and every emitted block
other than `N` is a half of a network, of mask length one less, whose range
includes the range of some exclusion. -/
theorem Exclude_minimal (N : Net) (E : List Net) (hN : Valid N) (hE : ∀ x ∈ E, Valid x) :
    List.Pairwise (fun o1 o2 => ¬ ∃ P, Split P = [o1, o2] ∨ Split P = [o2, o1])
      (Exclude N E) ∧
    ∀ o ∈ Exclude N E, o ≠ N →
      ∃ P, o ∈ Split P ∧ P.Masklen + 1 = o.Masklen ∧
        ∃ x ∈ E, ∀ a, inRange x a → inRange P a := by
  have hbs := Exclude_bounds_sorted E N hN
  constructor
  · refine List.Pairwise.imp_of_mem ?_ hbs.2
    rintro o1 o2 h1 h2 hle ⟨P, hS⟩
    have hv1 := (hbs.1 o1 h1).1
    have hv2 := (hbs.1 o2 h2).1
    have hpos := size_pos o1
    have hne : o1 ≠ o2 := by
      intro h
      rw [← h] at hle
      omega
    rcases hS with hS | hS
    · obtain ⟨hP, hPm⟩ := Valid_of_Split hS hv1 hne
      rw [Split_eq hP hPm] at hS
      simp only [List.cons.injEq, and_true] at hS
      rw [← hS.1] at h1
      rw [← hS.2] at h2
      exact not_both_halves E hE N hN P hP hPm h1 h2
    · obtain ⟨hP, hPm⟩ := Valid_of_Split hS hv2 (Ne.symm hne)
      rw [Split_eq hP hPm] at hS
      simp only [List.cons.injEq, and_true] at hS
      rw [← hS.1] at h2
      rw [← hS.2] at h1
      exact not_both_halves E hE N hN P hP hPm h2 h1
  · intro o ho hoN
    rcases Exclude_mem_parent E N hN o ho with h | ⟨P, hP, hPm, hPs, hPc⟩
    · exact absurd h hoN
    · obtain ⟨x, hx, _, hc⟩ := scan_eq_split_imp P E hPs
      have hxv := hE x hx
      refine ⟨P, ?_, ?_, x, hx, inRange_of_Contains P x hP.1 hxv.1 hxv.2.1 hc⟩
      · rw [Split_eq hP hPm]
        rcases hPc with h | h <;> simp [h]
      · rcases hPc with h | h <;> rw [h] <;> rfl

/-- Witness for C3: base 10.0.0.0/24 with the exclusions 10.0.0.128/25 and
10.0.0.5. -/
theorem Exclude_minimal_witness :
    List.Pairwise (fun o1 o2 => ¬ ∃ P, Split P = [o1, o2] ∨ Split P = [o2, o1])
      (Exclude ⟨0x0A000000, 24⟩ [⟨0x0A000080, 25⟩, ⟨0x0A000005, 32⟩]) ∧
    ∀ o ∈ Exclude ⟨0x0A000000, 24⟩ [⟨0x0A000080, 25⟩, ⟨0x0A000005, 32⟩],
      o ≠ ⟨0x0A000000, 24⟩ →
      ∃ P, o ∈ Split P ∧ P.Masklen + 1 = o.Masklen ∧
        ∃ x ∈ [(⟨0x0A000080, 25⟩ : Net), ⟨0x0A000005, 32⟩],
          ∀ a, inRange x a → inRange P a :=
  Exclude_minimal ⟨0x0A000000, 24⟩ [⟨0x0A000080, 25⟩, ⟨0x0A000005, 32⟩]
    (by decide) (by decide)

/-! ## Bits of masks and addresses -/

theorem Mask_eq_sub (n : Nat) (hn : n ≤ 32) : Mask n = 2 ^ 32 - 2 ^ (32 - n) := by
  interval_cases n <;> rfl

theorem testBit_Mask (n : Nat) (hn : n ≤ 32) (i : Nat) :
    (Mask n).testBit i = decide (32 - n ≤ i ∧ i < 32) := by
  rw [Mask_eq_mul n hn, ← Nat.shiftLeft_eq, Nat.testBit_shiftLeft, Nat.testBit_two_pow_sub_one]
  by_cases h1 : 32 - n ≤ i
  · by_cases h2 : i < 32
    · have : i - (32 - n) < n := by omega
      simp [h1, h2, this]
    · have : ¬ i - (32 - n) < n := by omega
      simp [h1, h2, this]
  · simp [h1]

theorem mod_two_pow_eq_zero_iff (x k : Nat) :
    x % 2 ^ k = 0 ↔ ∀ i, i < k → x.testBit i = false := by
  constructor
  · intro h i hi
    have h1 := Nat.testBit_mod_two_pow x k i
    rw [h] at h1
    simp [hi] at h1
    exact h1
  · intro h
    apply Nat.eq_of_testBit_eq
    intro i
    rw [Nat.testBit_mod_two_pow]
    by_cases hi : i < k
    · simp [hi, h i hi]
    · simp [hi]

theorem IsValid_iff_mod (N : Net) (hA : N.Addr < 2 ^ 32) (hm : N.Masklen ≤ 32) :
    IsValid N = true ↔ N.Addr % 2 ^ (32 - N.Masklen) = 0 := by
  have h := Valid_iff N
  unfold Valid size at h
  constructor
  · intro hv
    exact (h.1 ⟨hA, hm, hv⟩).2.2
  · intro hmod
    exact (h.2 ⟨hA, hm, hmod⟩).2.2

/-! ## Ranges and containment -/

theorem inRange_self (N : Net) (hA : N.Addr < 2 ^ 32) : inRange N N.Addr := ⟨hA, rfl⟩

/-- A block of shorter mask is not included in a block of longer mask. -/
theorem not_subset_of_Masklen_lt (A B : Net) (hA : A.Addr < 2 ^ 32) (hAm : A.Masklen ≤ 32)
    (hB : B.Addr < 2 ^ 32) (hlt : B.Masklen < A.Masklen)
    (hsub : ∀ a, inRange B a → inRange A a) : False := by
  have hBm : B.Masklen ≤ 32 := by omega
  have hsz := size_eq_mul B A (Nat.le_of_lt hlt) hAm
  have hposA := size_pos A
  have ht : 2 ≤ 2 ^ (A.Masklen - B.Masklen) := by
    calc 2 = 2 ^ 1 := rfl
      _ ≤ 2 ^ (A.Masklen - B.Masklen) := Nat.pow_le_pow_right (by norm_num) (by omega)
  have hlt2 : size A < size B := by
    rw [hsz]
    calc size A = size A * 1 := (Nat.mul_one _).symm
      _ < size A * 2 ^ (A.Masklen - B.Masklen) := Nat.mul_lt_mul_of_pos_left ht hposA
  -- the first two blocks of the size of `A` inside the block of `B`
  obtain ⟨b0, hb0⟩ : ∃ b0, b0 = size B * (B.Addr / size B) := ⟨_, rfl⟩
  have hdm := Nat.div_add_mod B.Addr (size B)
  have hmod := Nat.mod_lt B.Addr (size_pos B)
  have h32 : b0 + size B ≤ 2 ^ 32 := by
    have hs : 2 ^ 32 = size B * 2 ^ B.Masklen := by
      unfold size
      rw [← pow_add]
      congr 1
      omega
    have hq : B.Addr / size B < 2 ^ B.Masklen := by
      rw [Nat.div_lt_iff_lt_mul (size_pos B), Nat.mul_comm, ← hs]
      exact hB
    calc b0 + size B = size B * (B.Addr / size B + 1) := by rw [hb0]; ring
      _ ≤ size B * 2 ^ B.Masklen := Nat.mul_le_mul_left _ hq
      _ = 2 ^ 32 := hs.symm
  have hal : b0 % size B = 0 := by rw [hb0]; exact Nat.mul_mod_right _ _
  have hq0 : b0 / size B = B.Addr / size B := by
    rw [hb0]; exact Nat.mul_div_cancel_left _ (size_pos B)
  have hposB := size_pos B
  have hr1 : inRange B b0 := by
    rw [inRange_iff_div B _ hB hBm]
    exact ⟨by omega, hq0⟩
  have hr2 : inRange B (b0 + size A) := by
    rw [inRange_iff_div B _ hB hBm, ← hq0]
    refine ⟨by omega, ?_⟩
    rw [div_eq_div_iff_of_aligned _ _ _ (size_pos B) hal]
    omega
  have h1 := ((inRange_iff_div A _ hA hAm).1 (hsub _ hr1)).2
  have h2 := ((inRange_iff_div A _ hA hAm).1 (hsub _ hr2)).2
  rw [← h1, Nat.add_div_right _ hposA] at h2
  omega

/-- Inclusion of ranges gives `Contains`. -/
theorem Contains_of_subset (A B : Net) (hA : A.Addr < 2 ^ 32) (hB : B.Addr < 2 ^ 32)
    (hAm : A.Masklen ≤ 32) (hBm : B.Masklen ≤ 32) (hsub : ∀ a, inRange B a → inRange A a) :
    Contains A B = true := by
  have hle : A.Masklen ≤ B.Masklen := by
    by_contra hlt
    exact not_subset_of_Masklen_lt A B hA hAm hB (by omega) hsub
  exact Contains_of_common A B hA hB hBm hle B.Addr (hsub _ (inRange_self B hB))
    (inRange_self B hB)

/-! ## Depth of the recursion -/

theorem Split_of_lt (N : Net) (hm : N.Masklen < 32) :
    Split N = [⟨N.Addr, N.Masklen + 1⟩, ⟨N.Addr ||| 2 ^ (31 - N.Masklen), N.Masklen + 1⟩] := by
  have hnot : ¬ N.Masklen ≥ 32 := by omega
  have hnext : (N.Masklen + 1) % 256 = N.Masklen + 1 := by omega
  have hbit := Split_bit N.Masklen hm
  rw [hnext] at hbit
  unfold Split
  simp only [hnot, if_false, hnext, hbit]

theorem Split_mem_Masklen (N part : Net) (h : part ∈ Split N) :
    part.Masklen = N.Masklen + 1 ∧ part.Masklen ≤ 32 := by
  by_cases hm : N.Masklen < 32
  · rw [Split_of_lt N hm] at h
    simp only [List.mem_cons, List.mem_singleton, List.not_mem_nil, or_false] at h
    rcases h with h | h <;> rw [h] <;> exact ⟨rfl, by show N.Masklen + 1 ≤ 32; omega⟩
  · rw [Split_of_ge N (by omega)] at h
    simp at h

/-- With more than `32 - Masklen` levels allowed the run never hits the bound
and returns what `Exclude` returns. -/
theorem ExcludeDepth_eq (l : List Net) :
    ∀ depth (N : Net), 32 - N.Masklen < depth → ExcludeDepth depth N l = some (Exclude N l) := by
  intro depth
  induction depth with
  | zero =>
    intro N h
    omega
  | succ d ih =>
    intro N h
    rw [ExcludeDepth, Exclude_unfold]
    cases scan N l with
    | stop => rfl
    | emit => rfl
    | split =>
      by_cases hm : N.Masklen < 32
      · rw [Split_of_lt N hm]
        have h1 := ih ⟨N.Addr, N.Masklen + 1⟩ (by show 32 - (N.Masklen + 1) < d; omega)
        have h2 := ih ⟨N.Addr ||| 2 ^ (31 - N.Masklen), N.Masklen + 1⟩
          (by show 32 - (N.Masklen + 1) < d; omega)
        simp [h1, h2]
      · rw [Split_of_ge N (by omega)]
        rfl

/-! ## First match of the scanning loop -/

/-- The scanning loop is decided by the first exclusion that equals the network
or is contained in it. -/
theorem scan_eq_find (N : Net) (l : List Net) :
    scan N l =
      match l.find? (fun x => Equals N x || Contains N x) with
      | some x => if Equals N x then Scan.stop else Scan.split
      | none => Scan.emit := by
  induction l with
  | nil => rfl
  | cons y rest ih =>
    unfold scan
    by_cases h1 : Equals N y = true
    · simp [List.find?, h1]
    · by_cases h2 : Contains N y = true
      · simp [List.find?, h1, h2]
      · simp only [h1, h2, if_false]
        rw [ih]
        simp [List.find?, h1, h2]

/-! ## Visited networks -/

theorem Visited_unfold (net : Net) (l : List Net) :
    Visited net l =
      net ::
        match scan net l with
        | Scan.stop => []
        | Scan.split => (Split net).flatMap (fun part => Visited part l)
        | Scan.emit => [] := by
  unfold Visited
  rw [VisitedFuel]
  cases scan net l with
  | stop => rfl
  | emit => rfl
  | split =>
    show net :: (Split net).flatMap (fun part => VisitedFuel (32 - net.Masklen) part l)
      = net :: (Split net).flatMap (fun part => VisitedFuel (32 - part.Masklen + 1) part l)
    by_cases hm : 32 ≤ net.Masklen
    · rw [Split_of_ge net hm]
      rfl
    · have hfuel : 32 - (net.Masklen + 1) + 1 = 32 - net.Masklen := by omega
      rw [Split_of_lt net (by omega)]
      simp only [List.flatMap_cons, List.flatMap_nil, hfuel]

theorem Visited_of_split {net : Net} {l : List Net} (hv : Valid net) (hm : net.Masklen < 32)
    (h : scan net l = Scan.split) :
    Visited net l = net :: (Visited (lowHalf net) l ++ Visited (highHalf net) l) := by
  rw [Visited_unfold, h]
  simp [Split_eq hv hm]

theorem Visited_valid (l : List Net) :
    ∀ d (net : Net), 32 - net.Masklen = d → Valid net → ∀ v ∈ Visited net l, Valid v := by
  intro d
  induction d with
  | zero =>
    intro net hd hv v hmem
    rw [Visited_unfold] at hmem
    have hS : Split net = [] := Split_of_ge net (by have := hv.2.1; omega)
    rw [hS] at hmem
    have : v = net := by
      cases hs : scan net l <;> rw [hs] at hmem <;> simpa using hmem
    rw [this]
    exact hv
  | succ d ih =>
    intro net hd hv v hmem
    have hm : net.Masklen < 32 := by omega
    cases hs : scan net l with
    | stop =>
      rw [Visited_unfold, hs] at hmem
      rw [List.mem_singleton.1 hmem]
      exact hv
    | emit =>
      rw [Visited_unfold, hs] at hmem
      rw [List.mem_singleton.1 hmem]
      exact hv
    | split =>
      rw [Visited_of_split hv hm hs] at hmem
      rcases List.mem_cons.1 hmem with h | h
      · rw [h]
        exact hv
      · rcases List.mem_append.1 h with h | h
        · exact ih (lowHalf net) (by simp only [lowHalf]; omega) (hv.lowHalf hm) v h
        · exact ih (highHalf net) (by simp only [highHalf]; omega) (hv.highHalf hm) v h

theorem Visited_head (net : Net) (l : List Net) : net ∈ Visited net l := by
  rw [Visited_unfold]
  exact List.mem_cons_self _ _

/-- Every emitted network was visited. -/
theorem Exclude_subset_Visited (l : List Net) (net : Net) (hv : Valid net) :
    ∀ o ∈ Exclude net l, o ∈ Visited net l := by
  revert net
  apply Exclude_induct l (fun net out => ∀ o ∈ out, o ∈ Visited net l)
  · intro net _ _
    simp
  · intro net _ _ o ho
    rw [List.mem_singleton.1 ho]
    exact Visited_head net l
  · intro net _ _ _
    simp
  · intro net hv hs hm ihl ihh o ho
    rw [Visited_of_split hv hm hs]
    apply List.mem_cons_of_mem
    rcases List.mem_append.1 ho with h | h
    · exact List.mem_append_left _ (ihl o h)
    · exact List.mem_append_right _ (ihh o h)

theorem render_of_IsValid (n : Net) (h : IsValid n = true) :
    n.render = Rendered.ok (Long2ip n.Addr ++ "/" ++ toString n.Masklen) := by
  simp [Net.render, h]

theorem render_panicked_iff (n : Net) :
    (∃ msg, n.render = Rendered.panicked msg) ↔ IsValid n = false := by
  unfold Net.render
  cases h : IsValid n <;> simp

/-! ## Claims on the CIDR primitive -/

/-- C11: for a valid network `N` below /32, `Split N` is two networks `A`, `B`
of mask length one more, whose ranges are disjoint and together are exactly the
range of `N`. -/
theorem Split_partition (N : Net) (hN : Valid N) (hm : N.Masklen < 32) :
    ∃ A B, Split N = [A, B] ∧ A.Masklen = N.Masklen + 1 ∧ B.Masklen = N.Masklen + 1 ∧
      (∀ a, ¬ (inRange A a ∧ inRange B a)) ∧
      ∀ a, (inRange A a ∨ inRange B a) ↔ inRange N a := by
  refine ⟨lowHalf N, highHalf N, Split_eq hN hm, rfl, rfl, ?_, ?_⟩
  · intro a
    rw [inRange_iff (hN.lowHalf hm), inRange_iff (hN.highHalf hm), size_lowHalf]
    have hlo : (lowHalf N).Addr = N.Addr := rfl
    have hhi : (highHalf N).Addr = N.Addr + 2 ^ (31 - N.Masklen) := rfl
    rw [hlo, hhi]
    omega
  · intro a
    rw [inRange_iff (hN.lowHalf hm), inRange_iff (hN.highHalf hm), inRange_iff hN,
      size_lowHalf, size_highHalf, size_eq_two_mul hm]
    have hlo : (lowHalf N).Addr = N.Addr := rfl
    have hhi : (highHalf N).Addr = N.Addr + 2 ^ (31 - N.Masklen) := rfl
    rw [hlo, hhi]
    omega

/-- Witness for C11: the halves of 10.0.0.0/24. -/
theorem Split_partition_witness :
    ∃ A B, Split ⟨0x0A000000, 24⟩ = [A, B] ∧
      A.Masklen = (⟨0x0A000000, 24⟩ : Net).Masklen + 1 ∧
      B.Masklen = (⟨0x0A000000, 24⟩ : Net).Masklen + 1 ∧
      (∀ a, ¬ (inRange A a ∧ inRange B a)) ∧
      ∀ a, (inRange A a ∨ inRange B a) ↔ inRange ⟨0x0A000000, 24⟩ a :=
  Split_partition ⟨0x0A000000, 24⟩ (by decide) (by decide)

/-- C12: `Split N` returns nothing exactly when the mask length is 32 or more;
otherwise it returns two networks of mask length one more, the first with the
address of `N`, the second with bit `2 ^ (32 - (N.Masklen + 1))` set in it. -/
theorem Split_shape (N : Net) :
    (Split N = [] ↔ 32 ≤ N.Masklen) ∧
    (N.Masklen < 32 →
      Split N = [⟨N.Addr, N.Masklen + 1⟩,
        ⟨N.Addr ||| 2 ^ (32 - (N.Masklen + 1)), N.Masklen + 1⟩]) := by
  have key : N.Masklen < 32 →
      Split N = [⟨N.Addr, N.Masklen + 1⟩,
        ⟨N.Addr ||| 2 ^ (32 - (N.Masklen + 1)), N.Masklen + 1⟩] := by
    intro hm
    have hnot : ¬ N.Masklen ≥ 32 := by omega
    have hnext : (N.Masklen + 1) % 256 = N.Masklen + 1 := by omega
    have hbit := Split_bit N.Masklen hm
    rw [hnext] at hbit
    have he : 32 - (N.Masklen + 1) = 31 - N.Masklen := by omega
    unfold Split
    simp only [hnot, if_false, hnext, hbit, he]
  refine ⟨⟨?_, Split_of_ge N⟩, key⟩
  intro h
  by_contra hlt
  rw [key (by omega)] at h
  exact List.noConfusion h

/-- Witness for C12: `Split` of 10.0.0.0/24. -/
theorem Split_shape_witness :
    Split ⟨0x0A000000, 24⟩ = [⟨0x0A000000, 25⟩, ⟨0x0A000000 ||| 2 ^ (32 - (24 + 1)), 25⟩] :=
  (Split_shape ⟨0x0A000000, 24⟩).2 (by decide)

/-- C13 as stated fails: 10.0.0.1/24 and 10.0.0.2/24 have 32-bit addresses and
a mask length within 0..32, each contains the other, and they are not equal. -/
theorem Contains_antisymm_fails :
    ¬ ∀ A B : Net, A.Addr < 2 ^ 32 → B.Addr < 2 ^ 32 → A.Masklen ≤ 32 → B.Masklen ≤ 32 →
      Contains A B = true → Contains B A = true → Equals A B = true := by
  intro h
  have h1 := h ⟨0x0A000001, 24⟩ ⟨0x0A000002, 24⟩ (by decide) (by decide) (by decide)
    (by decide) (by decide) (by decide)
  exact absurd h1 (by decide)

/-- C13 amended: two networks with 32-bit addresses and mask lengths within
0..32 that contain each other have the same mask length and the same address
under that mask; when both are valid they are equal. -/
theorem Contains_antisymm (A B : Net) (hA : A.Addr < 2 ^ 32) (hB : B.Addr < 2 ^ 32)
    (hAm : A.Masklen ≤ 32) (hBm : B.Masklen ≤ 32)
    (hAB : Contains A B = true) (hBA : Contains B A = true) :
    A.Masklen = B.Masklen ∧ A.Addr &&& Mask A.Masklen = B.Addr &&& Mask A.Masklen ∧
    (IsValid A = true → IsValid B = true → Equals A B = true) := by
  have h1 := (Contains_iff_div A B hA hAm hB).1 hAB
  have hle : B.Masklen ≤ A.Masklen := by
    unfold Contains at hBA
    by_contra hne
    simp [hne] at hBA
  refine ⟨by omega, ?_, ?_⟩
  · rw [land_Mask_eq_iff _ _ _ hA hB hAm]
    exact h1.2.symm
  · intro hvA hvB
    rw [Equals_iff]
    exact eq_of_Contains_of_Masklen_eq ⟨hA, hAm, hvA⟩ ⟨hB, hBm, hvB⟩ hAB hle

/-- Witness for C13 amended: 10.0.0.0/24 against itself. -/
theorem Contains_antisymm_witness :
    (⟨0x0A000000, 24⟩ : Net).Masklen = (⟨0x0A000000, 24⟩ : Net).Masklen ∧
    (⟨0x0A000000, 24⟩ : Net).Addr &&& Mask (⟨0x0A000000, 24⟩ : Net).Masklen
      = (⟨0x0A000000, 24⟩ : Net).Addr &&& Mask (⟨0x0A000000, 24⟩ : Net).Masklen ∧
    (IsValid ⟨0x0A000000, 24⟩ = true → IsValid ⟨0x0A000000, 24⟩ = true →
      Equals ⟨0x0A000000, 24⟩ ⟨0x0A000000, 24⟩ = true) :=
  Contains_antisymm ⟨0x0A000000, 24⟩ ⟨0x0A000000, 24⟩ (by decide) (by decide) (by decide)
    (by decide) (by decide) (by decide)

/-- C14: for networks with 32-bit addresses and mask lengths within 0..32,
`Contains A B` is true exactly when every address in the range of `B` lies in
the range of `A`. -/
theorem Contains_iff_subset (A B : Net) (hA : A.Addr < 2 ^ 32) (hB : B.Addr < 2 ^ 32)
    (hAm : A.Masklen ≤ 32) (hBm : B.Masklen ≤ 32) :
    Contains A B = true ↔ ∀ a, inRange B a → inRange A a := by
  constructor
  · intro h a ha
    exact inRange_of_Contains A B hA hB hBm h a ha
  · intro hsub
    exact Contains_of_subset A B hA hB hAm hBm hsub

/-- Witness for C14: 10.0.0.0/24 and 10.0.0.128/25. -/
theorem Contains_iff_subset_witness :
    Contains ⟨0x0A000000, 24⟩ ⟨0x0A000080, 25⟩ = true ↔
      ∀ a, inRange ⟨0x0A000080, 25⟩ a → inRange ⟨0x0A000000, 24⟩ a :=
  Contains_iff_subset ⟨0x0A000000, 24⟩ ⟨0x0A000080, 25⟩ (by decide) (by decide) (by decide)
    (by decide)

/-- C15: for a mask length `n` within 0..32, `Mask n` is `2 ^ 32 - 2 ^ (32 - n)`,
the 32-bit word whose bits 31 down to `32 - n` are the ones set; `Mask 0 = 0`,
`Mask 24 = 0xFFFFFF00` and `Mask 32 = 0xFFFFFFFF`. -/
theorem Mask_value (n : Nat) (hn : n ≤ 32) :
    Mask n = 2 ^ 32 - 2 ^ (32 - n) ∧
    (∀ i, (Mask n).testBit i = decide (32 - n ≤ i ∧ i < 32)) ∧
    Mask 0 = 0 ∧ Mask 24 = 0xFFFFFF00 ∧ Mask 32 = 0xFFFFFFFF :=
  ⟨Mask_eq_sub n hn, testBit_Mask n hn, by decide, by decide, by decide⟩

/-- Witness for C15: the mask of length 24. -/
theorem Mask_value_witness :
    Mask 24 = 2 ^ 32 - 2 ^ (32 - 24) ∧
    (∀ i, (Mask 24).testBit i = decide (32 - 24 ≤ i ∧ i < 32)) ∧
    Mask 0 = 0 ∧ Mask 24 = 0xFFFFFF00 ∧ Mask 32 = 0xFFFFFFFF :=
  Mask_value 24 (by decide)

/-- C16: for a network with a 32-bit address and a mask length `n` within
0..32, `IsValid` is true exactly when the address is a multiple of
`2 ^ (32 - n)`, that is when none of its `32 - n` low bits is set; 10.0.0.1/24
is not valid, and `main` rejects it with the invalid-network diagnostic both as
the base network and as an exclusion. -/
theorem IsValid_iff (N : Net) (hA : N.Addr < 2 ^ 32) (hm : N.Masklen ≤ 32) :
    (IsValid N = true ↔ N.Addr % 2 ^ (32 - N.Masklen) = 0) ∧
    (IsValid N = true ↔ ∀ i, i < 32 - N.Masklen → N.Addr.testBit i = false) ∧
    IsValid ⟨0x0A000001, 24⟩ = false ∧
    (∀ arg args, main (Net.toArg ⟨0x0A000001, 24⟩) (arg :: args)
      = Outcome.exit1 Failure.invalidNetwork) ∧
    (∀ start_net rest exclude_nets,
      mainLoop start_net (Net.toArg ⟨0x0A000001, 24⟩ :: rest) exclude_nets
        = Outcome.exit1 Failure.invalidNetwork) := by
  refine ⟨IsValid_iff_mod N hA hm, ?_, by decide, ?_, ?_⟩
  · rw [IsValid_iff_mod N hA hm]
    exact mod_two_pow_eq_zero_iff _ _
  · intro arg args
    have hv : IsValid ⟨0x0A000001, 24⟩ = false := by decide
    simp [main, Net.toArg, hv]
  · intro start_net rest exclude_nets
    have hv : IsValid ⟨0x0A000001, 24⟩ = false := by decide
    simp [mainLoop, Net.toArg, hv]

/-- Witness for C16: 10.0.0.0/24 is valid, 10.0.0.1/24 is not. -/
theorem IsValid_iff_witness :
    (IsValid ⟨0x0A000000, 24⟩ = true ↔ 0x0A000000 % 2 ^ (32 - 24) = 0) ∧
    (IsValid ⟨0x0A000000, 24⟩ = true ↔
      ∀ i, i < 32 - 24 → (0x0A000000 : Nat).testBit i = false) ∧
    IsValid ⟨0x0A000001, 24⟩ = false ∧
    (∀ arg args, main (Net.toArg ⟨0x0A000001, 24⟩) (arg :: args)
      = Outcome.exit1 Failure.invalidNetwork) ∧
    (∀ start_net rest exclude_nets,
      mainLoop start_net (Net.toArg ⟨0x0A000001, 24⟩ :: rest) exclude_nets
        = Outcome.exit1 Failure.invalidNetwork) :=
  IsValid_iff ⟨0x0A000000, 24⟩ (by decide) (by decide)

/-! ## Exclusions that are not nested -/

theorem Masklen_le_of_Contains {A B : Net} (h : Contains A B = true) :
    A.Masklen ≤ B.Masklen := by
  unfold Contains at h
  by_contra hne
  simp [hne] at h

/-- Among valid exclusions that are not nested, one that contains another is
equal to it. -/
theorem eq_of_Contains_of_Unnested {l : List Net} (hl : ∀ x ∈ l, Valid x) (hu : Unnested l)
    {x y : Net} (hx : x ∈ l) (hy : y ∈ l) (hc : Contains x y = true) : x = y := by
  have hxv := hl x hx
  have hyv := hl y hy
  have hyy := inRange_self y hyv.1
  have hyx := inRange_of_Contains x y hxv.1 hyv.1 hyv.2.1 hc y.Addr hyy
  rcases hu x hx y hy with hd | hi
  · exact absurd ⟨hyx, hyy⟩ (hd y.Addr)
  · have hc2 := Contains_of_subset y x hyv.1 hxv.1 hyv.2.1 hxv.2.1 (fun a ha => (hi a).1 ha)
    exact eq_of_Contains_of_Masklen_eq hxv hyv hc (Masklen_le_of_Contains hc2)

/-- With exclusions that are not nested, the loop stops on every network that
is in the list, wherever it stands. -/
theorem scan_of_mem_of_Unnested {l : List Net} (hl : ∀ x ∈ l, Valid x) (hu : Unnested l)
    {net : Net} (hn : net ∈ l) : scan net l = Scan.stop := by
  cases hs : scan net l with
  | stop => rfl
  | emit =>
    have := ((scan_eq_emit_iff net l).1 hs net hn).1
    rw [Equals_self] at this
    exact Bool.noConfusion this
  | split =>
    obtain ⟨y, hy, hne, hc⟩ := scan_eq_split_imp net l hs
    have := eq_of_Contains_of_Unnested hl hu hn hy hc
    rw [← Equals_iff] at this
    rw [this] at hne
    exact Bool.noConfusion hne

/-- With exclusions that are not nested, the loop depends on the elements of
the list only, not on their order. -/
theorem scan_congr_of_Unnested {l l2 : List Net} (hmem : ∀ x, x ∈ l ↔ x ∈ l2)
    (hl : ∀ x ∈ l, Valid x) (hu : Unnested l) (net : Net) : scan net l = scan net l2 := by
  have hl2 : ∀ x ∈ l2, Valid x := fun x hx => hl x ((hmem x).2 hx)
  have hu2 : Unnested l2 := fun x hx y hy => hu x ((hmem x).2 hx) y ((hmem y).2 hy)
  by_cases hn : net ∈ l
  · rw [scan_of_mem_of_Unnested hl hu hn, scan_of_mem_of_Unnested hl2 hu2 ((hmem net).1 hn)]
  · have hemit : scan net l = Scan.emit ↔ scan net l2 = Scan.emit := by
      rw [scan_eq_emit_iff, scan_eq_emit_iff]
      constructor
      · intro h x hx
        exact h x ((hmem x).2 hx)
      · intro h x hx
        exact h x ((hmem x).1 hx)
    cases hs : scan net l with
    | stop => exact absurd (scan_eq_stop_imp net l hs) hn
    | emit => exact (hemit.1 hs).symm
    | split =>
      cases hs2 : scan net l2 with
      | stop => exact absurd ((hmem net).2 (scan_eq_stop_imp net l2 hs2)) hn
      | emit =>
        rw [hemit.2 hs2] at hs
        exact Scan.noConfusion hs
      | split => rfl

theorem ExcludeFuel_congr_of_Unnested {l l2 : List Net} (hmem : ∀ x, x ∈ l ↔ x ∈ l2)
    (hl : ∀ x ∈ l, Valid x) (hu : Unnested l) :
    ∀ fuel (net : Net), ExcludeFuel fuel net l = ExcludeFuel fuel net l2 := by
  intro fuel
  induction fuel with
  | zero =>
    intro net
    rfl
  | succ fuel ih =>
    intro net
    rw [ExcludeFuel, ExcludeFuel, scan_congr_of_Unnested hmem hl hu net]
    cases scan net l2 with
    | stop => rfl
    | emit => rfl
    | split =>
      show (Split net).flatMap (fun part => ExcludeFuel fuel part l)
        = (Split net).flatMap (fun part => ExcludeFuel fuel part l2)
      exact List.flatMap_congr (fun part _ => ih part)

/-- With valid exclusions that are not nested, an emitted block shares no
address with an exclusion whose mask is at least as long as that of the network
the block was emitted from. -/
theorem Exclude_disjoint_of_Unnested (l : List Net) (hl : ∀ x ∈ l, Valid x)
    (hu : Unnested l) (net : Net) (hv : Valid net) :
    ∀ o ∈ Exclude net l, ∀ x ∈ l, net.Masklen ≤ x.Masklen →
      ∀ a, ¬ (inRange o a ∧ inRange x a) := by
  revert net
  apply Exclude_induct l (fun net out => ∀ o ∈ out, ∀ x ∈ l, net.Masklen ≤ x.Masklen →
      ∀ a, ¬ (inRange o a ∧ inRange x a))
  · intro net _ _
    simp
  · intro net hv hs o ho x hx hle a ha
    rw [List.mem_singleton.1 ho] at ha
    have hxv := hl x hx
    have hc := Contains_of_common net x hv.1 hxv.1 hxv.2.1 hle a ha.1 ha.2
    have := ((scan_eq_emit_iff net l).1 hs x hx).2
    rw [hc] at this
    exact Bool.noConfusion this
  · intro net _ _ _
    simp
  · intro net hv hs hm ihl ihh o ho x hx hle a ha
    have hxv := hl x hx
    by_cases hlt : net.Masklen < x.Masklen
    · rcases List.mem_append.1 ho with h | h
      · exact ihl o h x hx (by show net.Masklen + 1 ≤ x.Masklen; omega) a ha
      · exact ihh o h x hx (by show net.Masklen + 1 ≤ x.Masklen; omega) a ha
    · have ho2 : o ∈ Exclude net l := by
        rw [Exclude_of_split hv hm hs]
        exact ho
      have han := Exclude_mem_subset hv ho2 a ha.1
      have hc := Contains_of_common net x hv.1 hxv.1 hxv.2.1 hle a han ha.2
      have heq := eq_of_Contains_of_Masklen_eq hv hxv hc (by omega)
      rw [← heq] at hx
      rw [scan_of_mem_of_Unnested hl hu hx] at hs
      exact Scan.noConfusion hs

/-! ## Claims on the engine -/

/-- C17: `Exclude` terminates: for every network and exclusion list a run that
is allowed more than `32 - Masklen` nested calls never hits its bound and
returns the emitted sequence; every result of `Split` has a mask length one
more than its argument and at most 32; from mask length 32 on nothing is split
and a single call suffices. -/
theorem Exclude_terminates (N : Net) (E : List Net) :
    (∀ depth, 32 - N.Masklen < depth → ExcludeDepth depth N E = some (Exclude N E)) ∧
    (∀ part ∈ Split N, part.Masklen = N.Masklen + 1 ∧ part.Masklen ≤ 32) ∧
    (32 ≤ N.Masklen → Split N = [] ∧ ExcludeDepth 1 N E = some (Exclude N E)) := by
  refine ⟨fun depth h => ExcludeDepth_eq E depth N h, fun part h => Split_mem_Masklen N part h, ?_⟩
  intro h
  exact ⟨Split_of_ge N h, ExcludeDepth_eq E 1 N (by omega)⟩

/-- Witness for C17: excluding the host 10.0.0.5 from 10.0.0.0/24 finishes
within 9 nested calls, and a /32 needs a single call. -/
theorem Exclude_terminates_witness :
    ExcludeDepth 9 ⟨0x0A000000, 24⟩ [⟨0x0A000005, 32⟩]
      = some (Exclude ⟨0x0A000000, 24⟩ [⟨0x0A000005, 32⟩]) ∧
    (Split ⟨0x0A000005, 32⟩ = [] ∧
      ExcludeDepth 1 ⟨0x0A000005, 32⟩ [⟨0x0A000005, 32⟩]
        = some (Exclude ⟨0x0A000005, 32⟩ [⟨0x0A000005, 32⟩])) :=
  ⟨(Exclude_terminates ⟨0x0A000000, 24⟩ [⟨0x0A000005, 32⟩]).1 9 (by decide),
    (Exclude_terminates ⟨0x0A000005, 32⟩ [⟨0x0A000005, 32⟩]).2.2 (by decide)⟩

/-- C18: the branch of `Exclude N E` is decided by the first element of `E`
that equals `N` or is contained in `N`: if it equals `N` nothing is emitted; if
it is contained without being equal, the results of `Split N` are recursed on
in order with the same list `E` (two halves when the mask length is below 32);
if there is no such element `N` is emitted. -/
theorem Exclude_first_match (N : Net) (E : List Net) :
    (∀ x, E.find? (fun x => Equals N x || Contains N x) = some x → Equals N x = true →
      Exclude N E = []) ∧
    (∀ x, E.find? (fun x => Equals N x || Contains N x) = some x → Equals N x = false →
      Exclude N E = (Split N).flatMap (fun part => Exclude part E) ∧
      (N.Masklen < 32 → ∃ A B, Split N = [A, B] ∧ Exclude N E = Exclude A E ++ Exclude B E) ∧
      (N.Addr < 2 ^ 32 → x.Addr < 2 ^ 32 → N.Masklen ≤ 32 → x.Masklen ≤ 32 →
        N.Masklen < 32)) ∧
    (E.find? (fun x => Equals N x || Contains N x) = none → Exclude N E = [N]) := by
  have hscan := scan_eq_find N E
  refine ⟨?_, ?_, ?_⟩
  · intro x hx he
    rw [hx] at hscan
    simp only [he, if_true] at hscan
    exact Exclude_of_stop hscan
  · intro x hx he
    rw [hx] at hscan
    simp only [he] at hscan
    have hs : scan N E = Scan.split := hscan
    have hun : Exclude N E = (Split N).flatMap (fun part => Exclude part E) := by
      rw [Exclude_unfold, hs]
    refine ⟨hun, ?_, ?_⟩
    · intro hm
      refine ⟨_, _, Split_of_lt N hm, ?_⟩
      rw [hun, Split_of_lt N hm]
      simp
    · intro hNa hxa hNm hxm
      by_contra hge
      have hp := List.find?_some hx
      simp only [he, Bool.false_or] at hp
      have hc := (Contains_iff_div N x hNa hNm hxa).1 hp
      have hsz : size N = 1 := by
        unfold size
        have : 32 - N.Masklen = 0 := by omega
        rw [this]
        rfl
      rw [hsz, Nat.div_one, Nat.div_one] at hc
      have heq : Equals N x = true := by
        rw [Equals_iff]
        cases N
        cases x
        simp only [Net.mk.injEq]
        simp only at hc hge hxm
        omega
      rw [heq] at he
      exact Bool.noConfusion he
  · intro hx
    rw [hx] at hscan
    exact Exclude_of_emit hscan

/-- Witness for C18: in [10.0.0.0/25, 10.0.0.0/24] the first element contained
in 10.0.0.0/24 is 10.0.0.0/25, which is not equal to it, so the network is
split into its two halves. -/
theorem Exclude_first_match_witness :
    Exclude ⟨0x0A000000, 24⟩ [⟨0x0A000000, 25⟩, ⟨0x0A000000, 24⟩]
      = (Split ⟨0x0A000000, 24⟩).flatMap
          (fun part => Exclude part [⟨0x0A000000, 25⟩, ⟨0x0A000000, 24⟩]) ∧
    (∃ A B, Split ⟨0x0A000000, 24⟩ = [A, B] ∧
        Exclude ⟨0x0A000000, 24⟩ [⟨0x0A000000, 25⟩, ⟨0x0A000000, 24⟩]
          = Exclude A [⟨0x0A000000, 25⟩, ⟨0x0A000000, 24⟩]
            ++ Exclude B [⟨0x0A000000, 25⟩, ⟨0x0A000000, 24⟩]) :=
  ⟨((Exclude_first_match ⟨0x0A000000, 24⟩ [⟨0x0A000000, 25⟩, ⟨0x0A000000, 24⟩]).2.1
      ⟨0x0A000000, 25⟩ (by decide) (by decide)).1,
    ((Exclude_first_match ⟨0x0A000000, 24⟩ [⟨0x0A000000, 25⟩, ⟨0x0A000000, 24⟩]).2.1
      ⟨0x0A000000, 25⟩ (by decide) (by decide)).2.1 (by decide)⟩

/-- C19: both halves of a valid network below /32 are valid; from a valid base
network every network visited by `Exclude`, and so every emitted one, is valid
with a mask length of at most 32; `String` takes its panic branch exactly when
`IsValid` is false, and on every emitted network it returns the rendered
text. -/
theorem Exclude_valid_no_panic (N : Net) (E : List Net) (hN : Valid N) :
    (N.Masklen < 32 → ∃ A B, Split N = [A, B] ∧ Valid A ∧ Valid B) ∧
    (∀ v ∈ Visited N E, Valid v) ∧
    (∀ o ∈ Exclude N E, o ∈ Visited N E ∧ Valid o) ∧
    (∀ n : Net, (∃ msg, n.render = Rendered.panicked msg) ↔ IsValid n = false) ∧
    (∀ o ∈ Exclude N E,
      o.render = Rendered.ok (Long2ip o.Addr ++ "/" ++ toString o.Masklen)) := by
  refine ⟨?_, Visited_valid E _ N rfl hN, ?_, render_panicked_iff, ?_⟩
  · intro hm
    exact ⟨lowHalf N, highHalf N, Split_eq hN hm, hN.lowHalf hm, hN.highHalf hm⟩
  · intro o ho
    exact ⟨Exclude_subset_Visited E N hN o ho, Exclude_mem_valid hN ho⟩
  · intro o ho
    exact render_of_IsValid o (Exclude_mem_valid hN ho).2.2

/-- Witness for C19: base 10.0.0.0/24 with the exclusion 10.0.0.128/25; the
one emitted network renders as 10.0.0.0/25. -/
theorem Exclude_valid_no_panic_witness :
    (∀ v ∈ Visited ⟨0x0A000000, 24⟩ [⟨0x0A000080, 25⟩], Valid v) ∧
    (∀ o ∈ Exclude ⟨0x0A000000, 24⟩ [⟨0x0A000080, 25⟩],
      o.render = Rendered.ok (Long2ip o.Addr ++ "/" ++ toString o.Masklen)) ∧
    (Exclude ⟨0x0A000000, 24⟩ [⟨0x0A000080, 25⟩]).map Net.render
      = [Rendered.ok "10.0.0.0/25"] :=
  ⟨(Exclude_valid_no_panic ⟨0x0A000000, 24⟩ [⟨0x0A000080, 25⟩] (by decide)).2.1,
    (Exclude_valid_no_panic ⟨0x0A000000, 24⟩ [⟨0x0A000080, 25⟩] (by decide)).2.2.2.2,
    by decide⟩

/-- C20: for a valid base network `N` and valid exclusions `E` that are not
nested in one another and none of which contains `N`, every emitted block is
disjoint from every exclusion, an address lies in an emitted block exactly when
it lies in `N` and in no exclusion, and the emitted sequence is the same for
every reordering of `E`. -/
theorem Exclude_set_difference (N : Net) (E : List Net) (hN : Valid N)
    (hE : ∀ x ∈ E, Valid x ∧ Contains x N = false) (hU : Unnested E) :
    (∀ o ∈ Exclude N E, ∀ x ∈ E, ∀ a, ¬ (inRange o a ∧ inRange x a)) ∧
    (∀ a, (∃ o ∈ Exclude N E, inRange o a) ↔ (inRange N a ∧ ∀ x ∈ E, ¬ inRange x a)) ∧
    (∀ E2, E.Perm E2 → Exclude N E2 = Exclude N E) := by
  have hl : ∀ x ∈ E, Valid x := fun x hx => (hE x hx).1
  have hdis : ∀ o ∈ Exclude N E, ∀ x ∈ E, ∀ a, ¬ (inRange o a ∧ inRange x a) := by
    intro o ho x hx a ha
    by_cases hle : N.Masklen ≤ x.Masklen
    · exact Exclude_disjoint_of_Unnested E hl hU N hN o ho x hx hle a ha
    · have hxv := hl x hx
      have han := Exclude_mem_subset hN ho a ha.1
      have hc := Contains_of_common x N hxv.1 hN.1 hN.2.1 (by omega) a ha.2 han
      rw [(hE x hx).2] at hc
      exact Bool.noConfusion hc
  refine ⟨hdis, ?_, ?_⟩
  · intro a
    constructor
    · rintro ⟨o, ho, hoa⟩
      exact ⟨Exclude_mem_subset hN ho a hoa, fun x hx hxa => hdis o ho x hx a ⟨hoa, hxa⟩⟩
    · rintro ⟨ha, hno⟩
      rcases Exclude_cover E hl N hN a ha with h | ⟨x, hx, hxa⟩
      · exact h
      · exact absurd hxa (hno x hx)
  · intro E2 hp
    unfold Exclude
    exact (ExcludeFuel_congr_of_Unnested (fun x => hp.mem_iff) hl hU _ N).symm

/-- Witness for C20: base 10.0.0.0/24 with the exclusions 10.0.0.128/25 and
10.0.0.5, which are disjoint; the output is the same with the two exclusions
swapped. -/
theorem Exclude_set_difference_witness :
    (∀ o ∈ Exclude ⟨0x0A000000, 24⟩ [⟨0x0A000080, 25⟩, ⟨0x0A000005, 32⟩],
      ∀ x ∈ [(⟨0x0A000080, 25⟩ : Net), ⟨0x0A000005, 32⟩],
        ∀ a, ¬ (inRange o a ∧ inRange x a)) ∧
    (∀ a, (∃ o ∈ Exclude ⟨0x0A000000, 24⟩ [⟨0x0A000080, 25⟩, ⟨0x0A000005, 32⟩], inRange o a) ↔
      (inRange ⟨0x0A000000, 24⟩ a ∧
        ∀ x ∈ [(⟨0x0A000080, 25⟩ : Net), ⟨0x0A000005, 32⟩], ¬ inRange x a)) ∧
    Exclude ⟨0x0A000000, 24⟩ [⟨0x0A000005, 32⟩, ⟨0x0A000080, 25⟩]
      = Exclude ⟨0x0A000000, 24⟩ [⟨0x0A000080, 25⟩, ⟨0x0A000005, 32⟩] :=
  have hU : Unnested [(⟨0x0A000080, 25⟩ : Net), ⟨0x0A000005, 32⟩] := by
    have key : ∀ a, ¬ (inRange ⟨0x0A000080, 25⟩ a ∧ inRange ⟨0x0A000005, 32⟩ a) := by
      intro a
      rw [inRange_iff (by decide), inRange_iff (by decide)]
      simp only [size]
      omega
    intro x hx y hy
    simp only [List.mem_cons, List.mem_singleton, List.not_mem_nil, or_false] at hx hy
    rcases hx with rfl | rfl <;> rcases hy with rfl | rfl
    · exact Or.inr (fun a => Iff.rfl)
    · exact Or.inl key
    · exact Or.inl (fun a h => key a ⟨h.2, h.1⟩)
    · exact Or.inr (fun a => Iff.rfl)
  ⟨(Exclude_set_difference _ _ (by decide) (by decide) hU).1,
    (Exclude_set_difference _ _ (by decide) (by decide) hU).2.1,
    (Exclude_set_difference ⟨0x0A000000, 24⟩ [⟨0x0A000080, 25⟩, ⟨0x0A000005, 32⟩]
      (by decide) (by decide) hU).2.2 [⟨0x0A000005, 32⟩, ⟨0x0A000080, 25⟩]
      (List.Perm.swap _ _ _)⟩

end NetExclude
